import Mathlib

/-!
A shallow embedding of the rlox bytecode compiler and virtual machine
(src/value.rs, src/table.rs, src/scanner.rs, src/chunk.rs, src/compiler.rs,
src/vm.rs, src/main.rs), together with proofs about the embedded code.

Modelling conventions:
* Rust `usize`/`u32` arithmetic is carried out on `Nat` with explicit
  `% 2^32` where the source wraps (`wrapping_mul` in `hash_string`).
* IEEE-754 doubles are modelled as exact rationals; every concrete program
  evaluated in this development stays inside the integer range on which
  double arithmetic and formatting agree with the rationals.
* Rust panics (`unwrap`, out-of-range indexing, slicing at a non-boundary)
  and potentially diverging `loop`s are modelled by `Option`/fuel: a result
  of `none` means the source program panics or diverges.
* Side effects on stdout/stderr are modelled by accumulating strings.
-/

/-- A single quote character, used when building diagnostic strings. -/
def quoteStr : String := String.singleton (Char.ofNat 39)

/-- Exact carrier for the IEEE-754 doubles of the interpreter: a fraction
`num / den` (not necessarily reduced; comparisons go by cross
multiplication). Every program examined in this development keeps its
numbers in the range where double arithmetic is exact, so this carrier
agrees with `f64`. `den = 0` would model a division by zero (an IEEE
infinity), which no examined program performs. -/
structure NumV where
  num : Int
  den : Nat
  deriving Repr, DecidableEq

/-- Rust `f64` addition on the exact fragment. -/
def numAdd (a b : NumV) : NumV := ⟨a.num * b.den + b.num * a.den, a.den * b.den⟩

/-- Rust `f64` subtraction on the exact fragment. -/
def numSub (a b : NumV) : NumV := ⟨a.num * b.den - b.num * a.den, a.den * b.den⟩

/-- Rust `f64` multiplication on the exact fragment. -/
def numMul (a b : NumV) : NumV := ⟨a.num * b.num, a.den * b.den⟩

/-- Rust `f64` division on the exact fragment. -/
def numDiv (a b : NumV) : NumV :=
  if 0 ≤ b.num then ⟨a.num * b.den, a.den * b.num.natAbs⟩
  else ⟨-(a.num * b.den), a.den * b.num.natAbs⟩

/-- Rust `f64` negation. -/
def numNeg (a : NumV) : NumV := ⟨-a.num, a.den⟩

/-- Rust `f64` equality (`==`) on the exact fragment: value equality. -/
def numEq (a b : NumV) : Bool := a.num * b.den == b.num * a.den

/-- Rust `f64` strict order (`<`) on the exact fragment. -/
def numLt (a b : NumV) : Bool := decide (a.num * (b.den : Int) < b.num * (a.den : Int))

/-- Rust `f64` strict order (`>`). -/
def numGt (a b : NumV) : Bool := numLt b a

/-- Dynamic value (enum `Value` in src/value.rs). -/
inductive Value where
  | bool (b : Bool)
  | nil
  | number (n : NumV)
  | string (s : String)
  deriving Repr, DecidableEq

/-- Rust `Value::is_number` (src/value.rs). -/
def Value.is_number : Value → Bool
  | .number _ => true
  | _ => false

/-- Rust `Value::is_string` (src/value.rs). -/
def Value.is_string : Value → Bool
  | .string _ => true
  | _ => false

/-- Rust `Value::as_number` (src/value.rs); panics (`none`) on a non-number. -/
def Value.as_number : Value → Option NumV
  | .number n => some n
  | _ => none

/-- Rust `Value::as_string` (src/value.rs); panics (`none`) on a non-string. -/
def Value.as_string : Value → Option String
  | .string s => some s
  | _ => none

/-- Rust `Value::is_falsey` (src/value.rs): only `Nil` and `Bool(false)` are falsey. -/
def Value.is_falsey : Value → Bool
  | .nil => true
  | .bool false => true
  | _ => false

/-- Rust `impl PartialEq for Value` (src/value.rs): structural within a variant,
false across variants. -/
def valueEq : Value → Value → Bool
  | .bool a, .bool b => a == b
  | .nil, .nil => true
  | .number a, .number b => numEq a b
  | .string a, .string b => a == b
  | _, _ => false

/-- The decimal digits of the fraction `r / d` (`0 ≤ r < d`), with fuel. -/
def fracDigits : Nat → Nat → Nat → String
  | 0, _, _ => ""
  | fuel+1, r, d =>
    if r = 0 then ""
    else toString (r * 10 / d) ++ fracDigits fuel (r * 10 % d) d

/-- Rust's `{}` `Display` for `f64` as used by `print_value` (src/value.rs):
an integral double renders with no fractional part (`7`, not `7.0`).
Modelled exactly on values whose decimal expansion terminates. -/
def fmtFloat (q : NumV) : String :=
  if q.den = 0 then "inf"
  else if q.num % (q.den : Int) = 0 then toString (q.num / (q.den : Int))
  else
    (if q.num < 0 then "-" else "") ++ toString (q.num.natAbs / q.den) ++ "." ++
      fracDigits 64 (q.num.natAbs % q.den) q.den

/-- Rust `print_value` (src/value.rs), returning the text written to stdout. -/
def print_value : Value → String
  | .bool b => if b then "true" else "false"
  | .nil => "nil"
  | .number n => fmtFloat n
  | .string s => s

/-- One slot of the open-addressing table (enum `Entry` in src/table.rs). -/
inductive Entry where
  | empty
  | occupied (key : String) (value : Value)
  | tombstone
  deriving Repr, DecidableEq

/-- The open-addressing hash table (struct `Table` in src/table.rs). -/
structure Table where
  entries : List Entry
  count : Nat
  deriving Repr, DecidableEq

/-- UTF-8 encoding of one character, as Rust's `str::bytes` yields it. -/
def utf8Bytes (c : Char) : List Nat :=
  let n := c.toNat
  if n < 128 then [n]
  else if n < 2048 then [192 + n / 64, 128 + n % 64]
  else if n < 65536 then [224 + n / 4096, 128 + (n / 64) % 64, 128 + n % 64]
  else [240 + n / 262144, 128 + (n / 4096) % 64, 128 + (n / 64) % 64, 128 + n % 64]

/-- The UTF-8 bytes of a string (Rust `str::bytes` / `str::as_bytes`). -/
def strBytes (s : String) : List Nat :=
  (s.data.map utf8Bytes).flatten

/-- Rust `hash_string` (src/table.rs): FNV-1a, 32-bit, over the UTF-8 bytes. -/
def hash_string (key : String) : Nat :=
  (strBytes key).foldl (fun h b => ((h ^^^ b) * 16777619) % 4294967296) 2166136261

/-- Rust `Table::new` (src/table.rs). -/
def Table.new : Table := ⟨[], 0⟩

/-- The probing loop of `Table::find_entry` (src/table.rs), scanning probe
step `j` (slot `(hash + j) % len`) with the first tombstone seen recorded in
`tomb`. Fuel models the source's unbounded `loop`; `none` means divergence. -/
def findEntryAux (entries : List Entry) (key : String) (hash : Nat) :
    Nat → Nat → Option Nat → Option Nat
  | 0, _, _ => none
  | fuel+1, j, tomb =>
    let index := (hash + j) % entries.length
    match entries.getD index .empty with
    | .empty => some (tomb.getD index)
    | .occupied k _ =>
      if k = key then some index else findEntryAux entries key hash fuel (j+1) tomb
    | .tombstone => findEntryAux entries key hash fuel (j+1) (some (tomb.getD index))

/-- Rust `Table::find_entry` (src/table.rs). The probe starts at
`hash_string(key) % len`; `len` probe steps always reach an `Empty` slot
when one exists, so fuel `len` is exact for terminating probes. -/
def Table.find_entry (t : Table) (key : String) : Option Nat :=
  findEntryAux t.entries key (hash_string key) t.entries.length 0 none

/-- The probing loop of `Table::find_entry_in` (src/table.rs): stops at the
first `Empty`-or-`Tombstone` slot or at a slot already holding `key`. -/
def findEntryInAux (entries : List Entry) (key : String) (hash : Nat) :
    Nat → Nat → Option Nat
  | 0, _ => none
  | fuel+1, j =>
    let index := (hash + j) % entries.length
    match entries.getD index .empty with
    | .empty => some index
    | .tombstone => some index
    | .occupied k _ =>
      if k = key then some index else findEntryInAux entries key hash fuel (j+1)

/-- Rust `Table::find_entry_in` (src/table.rs). -/
def find_entry_in (entries : List Entry) (key : String) : Option Nat :=
  findEntryInAux entries key (hash_string key) entries.length 0

/-- One step of the re-insertion loop of `Table::adjust_capacity`
(src/table.rs): occupied entries are probed into the new slots with
`find_entry_in` and recounted; everything else is dropped. -/
def rehashStep (acc : Option (List Entry × Nat)) (e : Entry) :
    Option (List Entry × Nat) := do
  let (es, cnt) ← acc
  match e with
  | .occupied k v => do
    let i ← find_entry_in es k
    pure (es.set i (.occupied k v), cnt + 1)
  | _ => pure (es, cnt)

/-- Rust `Table::adjust_capacity` (src/table.rs): re-insert every occupied entry
into a fresh table of the given capacity, rebuilding `count`. -/
def Table.adjust_capacity (t : Table) (capacity : Nat) : Option Table := do
  let init : List Entry := List.replicate capacity Entry.empty
  let r ← t.entries.foldl rehashStep (some (init, 0))
  pure ⟨r.1, r.2⟩

/-- Rust `Table::set` (src/table.rs): grow at load factor 3/4, probe, overwrite;
report "new key" (and bump `count`) only when the slot found was `Empty`. -/
def Table.set (t : Table) (key : String) (value : Value) : Option (Table × Bool) := do
  let t ←
    if t.count + 1 > t.entries.length * 3 / 4 then
      let capacity := if t.entries.length < 8 then 8 else t.entries.length * 2
      t.adjust_capacity capacity
    else pure t
  let index ← t.find_entry key
  let is_new_key := match t.entries.getD index .empty with
    | .empty => true
    | _ => false
  let count := if is_new_key then t.count + 1 else t.count
  pure (⟨t.entries.set index (.occupied key value), count⟩, is_new_key)

/-- Rust `Table::get` (src/table.rs). The outer `Option` models the probe loop
(`none` = divergence); the inner one is the source's `Option<&Value>`. -/
def Table.get (t : Table) (key : String) : Option (Option Value) :=
  if t.entries.isEmpty then some none
  else do
    let index ← t.find_entry key
    match t.entries.getD index .empty with
    | .occupied _ v => pure (some v)
    | _ => pure none

/-- Rust `Table::delete` (src/table.rs): replace an occupied slot by a tombstone;
`count` is not decremented. -/
def Table.delete (t : Table) (key : String) : Option (Table × Bool) :=
  if t.entries.isEmpty then some (t, false)
  else do
    let index ← t.find_entry key
    match t.entries.getD index .empty with
    | .occupied _ _ => pure (⟨t.entries.set index .tombstone, t.count⟩, true)
    | _ => pure (t, false)

/-- The probing loop of `Table::find_string` (src/table.rs). -/
def findStringAux (entries : List Entry) (string : String) (hash : Nat) :
    Nat → Nat → Option (Option String)
  | 0, _ => none
  | fuel+1, j =>
    let index := (hash + j) % entries.length
    match entries.getD index .empty with
    | .empty => some none
    | .occupied k _ =>
      if k = string then some (some k) else findStringAux entries string hash fuel (j+1)
    | .tombstone => findStringAux entries string hash fuel (j+1)

/-- Rust `Table::find_string` (src/table.rs), with the caller-precomputed hash. -/
def Table.find_string (t : Table) (string : String) (hash : Nat) :
    Option (Option String) :=
  if t.entries.isEmpty then some none
  else findStringAux t.entries string hash t.entries.length 0

example : (do
    let (t1, b1) ← Table.new.set "x" (Value.number ⟨1, 1⟩)
    let (t2, b2) ← t1.delete "x"
    let live ← t2.get "x"
    let (_t3, b3) ← t2.set "x" (Value.number ⟨2, 1⟩)
    pure (b1, b2, live, b3)) =
    some (true, true, none, false) := by decide

/-! ## Scanner (src/scanner.rs)

Rust's `Scanner` keeps `start`/`current` as *byte* offsets into the source
but reads characters with `chars().nth(index)`, which counts *characters*.
The embedding keeps both views: `String.data` for `chars()` and `strBytes`
for `len`/`as_bytes`/slicing, so the byte-versus-char confusion of the
source is reproduced exactly. -/

/-- Token kinds (enum `TokenType` in src/scanner.rs); keyword kinds carry a
`k` prefix because their Rust names are Lean keywords. -/
inductive TokenType where
  | leftParen | rightParen | leftBrace | rightBrace | comma | dot | minus | plus
  | semicolon | slash | star
  | bang | bangEqual | equal | equalEqual | greater | greaterEqual | less | lessEqual
  | identifier | string | number
  | kAnd | kClass | kElse | kFalse | kFor | kFun | kIf | kNil | kOr | kPrint
  | kReturn | kSuper | kThis | kTrue | kVar | kWhile
  | error | eof
  deriving Repr, DecidableEq

/-- struct `Token` (src/scanner.rs). -/
structure Token where
  token_type : TokenType
  lexeme : String
  line : Int
  deriving Repr, DecidableEq

/-- struct `Scanner` (src/scanner.rs): `start` and `current` are byte offsets. -/
structure Scanner where
  source : String
  start : Nat
  current : Nat
  line : Int
  deriving Repr, DecidableEq

/-- Rust `init_scanner` (src/scanner.rs). -/
def init_scanner (source : String) : Scanner := ⟨source, 0, 0, 1⟩

/-- Rust `str::len`: the length in UTF-8 bytes. -/
def byteLen (s : String) : Nat := (strBytes s).length

/-- Drop exactly `n` leading UTF-8 bytes; `none` when `n` is not a char
boundary (Rust byte slicing panics there). -/
def dropBytes : List Char → Nat → Option (List Char)
  | cs, 0 => some cs
  | [], _+1 => none
  | c :: cs, n+1 =>
    if (utf8Bytes c).length ≤ n+1 then dropBytes cs (n+1 - (utf8Bytes c).length)
    else none

/-- Take exactly `n` leading UTF-8 bytes as characters; `none` when `n` is
not a char boundary. -/
def takeBytes : List Char → Nat → Option (List Char)
  | _, 0 => some []
  | [], _+1 => none
  | c :: cs, n+1 =>
    if (utf8Bytes c).length ≤ n+1 then
      (takeBytes cs (n+1 - (utf8Bytes c).length)).map (c :: ·)
    else none

/-- Rust byte slicing `&s[a..b]`: panics (`none`) unless both ends are char
boundaries and `a ≤ b ≤ s.len()`. -/
def byteSlice (s : String) (a b : Nat) : Option String :=
  if a ≤ b then do
    let cs ← dropBytes s.data a
    let ls ← takeBytes cs (b - a)
    pure ⟨ls⟩
  else none

/-- Rust `Scanner::peek` (src/scanner.rs): `chars().nth(current)` with the NUL character as fallback —
note `current` is a byte offset but `nth` counts characters. -/
def Scanner.peek (sc : Scanner) : Char :=
  (sc.source.data.get? sc.current).getD (Char.ofNat 0)

/-- Rust `Scanner::peek_next` (src/scanner.rs). -/
def Scanner.peek_next (sc : Scanner) : Char :=
  (sc.source.data.get? (sc.current + 1)).getD (Char.ofNat 0)

/-- Rust `Scanner::is_at_end` (src/scanner.rs): `current >= source.len()` (bytes). -/
def Scanner.is_at_end (sc : Scanner) : Bool := byteLen sc.source ≤ sc.current

/-- Rust `Scanner::advance` (src/scanner.rs): bump `current`, then
`chars().nth(current - 1).unwrap()` — `none` models the `unwrap` panic. -/
def Scanner.advance (sc : Scanner) : Option (Scanner × Char) :=
  (sc.source.data.get? sc.current).map
    (fun c => ({ sc with current := sc.current + 1 }, c))

/-- Rust `Scanner::make_token` (src/scanner.rs): the lexeme is the byte slice
`source[start..current]`; `none` models the boundary panic. -/
def Scanner.make_token (sc : Scanner) (tt : TokenType) : Option Token :=
  (byteSlice sc.source sc.start sc.current).map (fun lx => ⟨tt, lx, sc.line⟩)

/-- Rust `Scanner::error_token` (src/scanner.rs). -/
def Scanner.error_token (sc : Scanner) (message : String) : Token :=
  ⟨.error, message, sc.line⟩

/-- Rust `Scanner::match_ch` (src/scanner.rs). -/
def Scanner.match_ch (sc : Scanner) (expected : Char) : Scanner × Bool :=
  if sc.is_at_end || sc.peek != expected then (sc, false)
  else ({ sc with current := sc.current + 1 }, true)

/-- Rust `Scanner::is_digit` (src/scanner.rs). -/
def is_digit (c : Char) : Bool := decide ('0' ≤ c) && decide (c ≤ '9')

/-- Rust `Scanner::is_alpha` (src/scanner.rs). Note the source's strict `c > 'a'`
on the lower bound of the lowercase range: `'a'` itself is not alpha. -/
def is_alpha (c : Char) : Bool :=
  (decide ('a' < c) && decide (c ≤ 'z')) ||
  (decide ('A' ≤ c) && decide (c ≤ 'Z')) ||
  decide (c = '_')

/-- The inner `//`-comment loop of `Scanner::skip_whitespace` (src/scanner.rs). -/
def commentAux : Nat → Scanner → Option Scanner
  | 0, _ => none
  | fuel+1, sc =>
    if sc.peek != '\n' && ! sc.is_at_end then do
      let (sc, _) ← sc.advance
      commentAux fuel sc
    else some sc

/-- Rust `Scanner::skip_whitespace` (src/scanner.rs), fuelled. -/
def skipWhitespaceAux : Nat → Scanner → Option Scanner
  | 0, _ => none
  | fuel+1, sc =>
    let c := sc.peek
    if c = ' ' || c = Char.ofNat 13 || c = Char.ofNat 9 then do
      let (sc, _) ← sc.advance
      skipWhitespaceAux fuel sc
    else if c = '\n' then do
      let (sc, _) ← Scanner.advance { sc with line := sc.line + 1 }
      skipWhitespaceAux fuel sc
    else if c = '/' then
      if sc.peek_next = '/' then do
        let sc ← commentAux fuel sc
        skipWhitespaceAux fuel sc
      else some sc
    else some sc

/-- The `while` loop of `Scanner::string` (src/scanner.rs). -/
def stringAux : Nat → Scanner → Option Scanner
  | 0, _ => none
  | fuel+1, sc =>
    if sc.peek != '"' && ! sc.is_at_end then do
      let sc := if sc.peek = '\n' then { sc with line := sc.line + 1 } else sc
      let (sc, _) ← sc.advance
      stringAux fuel sc
    else some sc

/-- Rust `Scanner::string` (src/scanner.rs). -/
def Scanner.stringTok (fuel : Nat) (sc : Scanner) : Option (Scanner × Token) := do
  let sc ← stringAux fuel sc
  if sc.is_at_end then pure (sc, sc.error_token "Unterminated string.")
  else do
    let (sc, _) ← sc.advance
    let tok ← sc.make_token .string
    pure (sc, tok)

/-- A `while is_digit(peek) advance` loop (`Scanner::number`, src/scanner.rs). -/
def digitsAux : Nat → Scanner → Option Scanner
  | 0, _ => none
  | fuel+1, sc =>
    if is_digit sc.peek then do
      let (sc, _) ← sc.advance
      digitsAux fuel sc
    else some sc

/-- Rust `Scanner::number` (src/scanner.rs). -/
def Scanner.numberTok (fuel : Nat) (sc : Scanner) : Option (Scanner × Token) := do
  let sc ← digitsAux fuel sc
  let sc ←
    if sc.peek = '.' && is_digit sc.peek_next then do
      let (sc, _) ← sc.advance
      digitsAux fuel sc
    else pure sc
  let tok ← sc.make_token .number
  pure (sc, tok)

/-- Rust `Scanner::check_keyword` (src/scanner.rs): compare the byte slice
`source[start+s .. start+s+len]` with `rest` (slice only taken when the
length test passes, as in the source's short-circuit `&&`). -/
def Scanner.check_keyword (sc : Scanner) (start : Nat) (rest : String)
    (token_type : TokenType) : Option TokenType :=
  let length := byteLen rest
  if sc.current - sc.start = start + length then do
    let sl ← byteSlice sc.source (sc.start + start) (sc.start + start + length)
    pure (if sl = rest then token_type else .identifier)
  else pure .identifier

/-- Rust `Scanner::identifier_type` (src/scanner.rs): the keyword trie, keyed on
`source.as_bytes()[start]` (byte values of ASCII letters). -/
def Scanner.identifier_type (sc : Scanner) : Option TokenType := do
  let b ← (strBytes sc.source).get? sc.start
  match b with
  | 97 => sc.check_keyword 1 "nd" .kAnd
  | 99 => sc.check_keyword 1 "lass" .kClass
  | 101 => sc.check_keyword 1 "lse" .kElse
  | 102 =>
    if sc.current - sc.start > 1 then do
      let b2 ← (strBytes sc.source).get? (sc.start + 1)
      match b2 with
      | 97 => sc.check_keyword 2 "lse" .kFalse
      | 111 => sc.check_keyword 2 "r" .kFor
      | 117 => sc.check_keyword 2 "n" .kFun
      | _ => pure .identifier
    else pure .identifier
  | 105 => sc.check_keyword 1 "f" .kIf
  | 110 => sc.check_keyword 1 "il" .kNil
  | 111 => sc.check_keyword 1 "r" .kOr
  | 112 => sc.check_keyword 1 "rint" .kPrint
  | 114 => sc.check_keyword 1 "eturn" .kReturn
  | 115 => sc.check_keyword 1 "uper" .kSuper
  | 116 =>
    if sc.current - sc.start > 1 then do
      let b2 ← (strBytes sc.source).get? (sc.start + 1)
      match b2 with
      | 104 => sc.check_keyword 2 "is" .kThis
      | 114 => sc.check_keyword 2 "ue" .kTrue
      | _ => pure .identifier
    else pure .identifier
  | 118 => sc.check_keyword 1 "ar" .kVar
  | 119 => sc.check_keyword 1 "hile" .kWhile
  | _ => pure .identifier

/-- Rust `Scanner::identifier` (src/scanner.rs). -/
def identAux : Nat → Scanner → Option Scanner
  | 0, _ => none
  | fuel+1, sc =>
    if is_alpha sc.peek || is_digit sc.peek then do
      let (sc, _) ← sc.advance
      identAux fuel sc
    else some sc

/-- Rust `Scanner::identifier` (src/scanner.rs), producing the token. -/
def Scanner.identifierTok (fuel : Nat) (sc : Scanner) : Option (Scanner × Token) := do
  let sc ← identAux fuel sc
  let tt ← sc.identifier_type
  let tok ← sc.make_token tt
  pure (sc, tok)

/-- Pair a freshly made token with the scanner state. -/
def Scanner.mk1 (sc : Scanner) (tt : TokenType) : Option (Scanner × Token) :=
  (sc.make_token tt).map (fun t => (sc, t))

/-- Per-call fuel: every scanner loop advances at least one byte offset per
iteration, so the byte length of the source bounds all loops. -/
def scanFuel (s : String) : Nat := byteLen s + 16

/-- Rust `Scanner::scan_token` (src/scanner.rs). `none` models a panic. -/
def Scanner.scan_token (sc : Scanner) : Option (Scanner × Token) := do
  let fuel := scanFuel sc.source
  let sc ← skipWhitespaceAux fuel sc
  let sc := { sc with start := sc.current }
  if sc.is_at_end then sc.mk1 .eof
  else do
    let (sc, c) ← sc.advance
    if is_alpha c then sc.identifierTok fuel
    else if is_digit c then sc.numberTok fuel
    else match c with
    | '(' => sc.mk1 .leftParen
    | ')' => sc.mk1 .rightParen
    | '{' => sc.mk1 .leftBrace
    | '}' => sc.mk1 .rightBrace
    | ';' => sc.mk1 .semicolon
    | '.' => sc.mk1 .dot
    | ',' => sc.mk1 .comma
    | '-' => sc.mk1 .minus
    | '+' => sc.mk1 .plus
    | '/' => sc.mk1 .slash
    | '*' => sc.mk1 .star
    | '!' =>
      let (sc, m) := sc.match_ch '='
      sc.mk1 (if m then .bangEqual else .bang)
    | '=' =>
      let (sc, m) := sc.match_ch '='
      sc.mk1 (if m then .equalEqual else .equal)
    | '<' =>
      let (sc, m) := sc.match_ch '='
      sc.mk1 (if m then .lessEqual else .less)
    | '>' =>
      let (sc, m) := sc.match_ch '='
      sc.mk1 (if m then .greaterEqual else .greater)
    | '"' => sc.stringTok fuel
    | _ => pure (sc, sc.error_token "Unexpected character.")

example : (Scanner.scan_token (init_scanner "and")).map (fun r => (r.2.token_type, r.2.lexeme)) =
    some (TokenType.error, "Unexpected character.") := by decide

example : (Scanner.scan_token (init_scanner "band")).map (fun r => (r.2.token_type, r.2.lexeme)) =
    some (TokenType.identifier, "b") := by decide

example : (Scanner.scan_token (init_scanner "print")).map (fun r => (r.2.token_type, r.2.lexeme)) =
    some (TokenType.kPrint, "print") := by decide

/-! ## Compiler (src/compiler.rs) -/

/-- enum `Precedence` (src/compiler.rs). -/
inductive Precedence where
  | none | assignment | or | and | equality | comparison | term | factor
  | unary | call | primary
  deriving Repr, DecidableEq

/-- The derived `PartialOrd` of `Precedence` follows declaration order. -/
def Precedence.toNat : Precedence → Nat
  | .none => 0
  | .assignment => 1
  | .or => 2
  | .and => 3
  | .equality => 4
  | .comparison => 5
  | .term => 6
  | .factor => 7
  | .unary => 8
  | .call => 9
  | .primary => 10

/-- Rust `Precedence::next` (src/compiler.rs). -/
def Precedence.next : Precedence → Precedence
  | .none => .assignment
  | .assignment => .or
  | .or => .and
  | .and => .equality
  | .equality => .comparison
  | .comparison => .term
  | .term => .factor
  | .factor => .unary
  | .unary => .call
  | .call => .primary
  | .primary => .primary

/-- struct `Parser` (src/compiler.rs); `errLog` collects the stderr text. -/
structure Parser where
  scanner : Scanner
  current : Token
  previous : Token
  had_error : Bool
  panic_mode : Bool
  errLog : String
  deriving Repr, DecidableEq

/-- Rust `Parser::new` (src/compiler.rs), with its dummy Eof tokens. -/
def Parser.new (scanner : Scanner) : Parser :=
  ⟨scanner, ⟨.eof, "", 0⟩, ⟨.eof, "", 0⟩, false, false, ""⟩

/-- Rust `Parser::error_at` (src/compiler.rs). -/
def Parser.error_at (p : Parser) (token : Token) (message : String) : Parser :=
  if p.panic_mode then p
  else
    let loc :=
      if token.token_type = .eof then " at end"
      else if token.token_type = .error then ""
      else " at " ++ quoteStr ++ token.lexeme ++ quoteStr
    { p with
        panic_mode := true
        had_error := true
        errLog := p.errLog ++ "[line " ++ toString token.line ++ "] Error" ++
          loc ++ ": " ++ message ++ "\n" }

/-- Rust `Parser::error_at_current` (src/compiler.rs). -/
def Parser.error_at_current (p : Parser) (message : String) : Parser :=
  p.error_at p.current message

/-- Rust `Parser::error` (src/compiler.rs): report at the previous token. -/
def Parser.error (p : Parser) (message : String) : Parser :=
  p.error_at p.previous message

/-- The `loop` of `Parser::advance` (src/compiler.rs): scan until a
non-`Error` token, reporting every error token met. -/
def parserAdvanceAux : Nat → Parser → Option Parser
  | 0, _ => none
  | fuel+1, p => do
    let (sc, tok) ← p.scanner.scan_token
    let p := { p with scanner := sc, current := tok }
    if tok.token_type != .error then pure p
    else parserAdvanceAux fuel (p.error_at_current tok.lexeme)

/-- Rust `Parser::advance` (src/compiler.rs). -/
def Parser.advance (p : Parser) : Option Parser :=
  parserAdvanceAux (byteLen p.scanner.source + 16) { p with previous := p.current }

/-- Rust `Parser::check` (src/compiler.rs). -/
def Parser.check (p : Parser) (token_type : TokenType) : Bool :=
  p.current.token_type = token_type

/-- Rust `Parser::consume` (src/compiler.rs). -/
def Parser.consume (p : Parser) (token_type : TokenType) (message : String) :
    Option Parser :=
  if p.current.token_type = token_type then p.advance
  else some (p.error_at_current message)

/-- Rust `Parser::match_token` (src/compiler.rs). -/
def Parser.match_token (p : Parser) (token_type : TokenType) :
    Option (Parser × Bool) :=
  if ! p.check token_type then some (p, false)
  else (p.advance).map (fun p => (p, true))

/-- struct `Local` (src/compiler.rs): a lexeme and a scope depth
(`-1` = declared, not yet initialized). -/
structure Local where
  name : String
  depth : Int
  deriving Repr, DecidableEq

/-- Identifiers of the prefix parse functions in the rule table
(src/compiler.rs `get_rule`); `variableP` stands for `Compiler::variable`. -/
inductive PrefixFn where
  | grouping | unary | variableP | number | string | literal
  deriving Repr, DecidableEq

/-- Identifier of the only infix parse function, `Compiler::binary`. -/
inductive InfixFn where
  | binary
  deriving Repr, DecidableEq

/-- struct `ParseRule` (src/compiler.rs). -/
structure ParseRule where
  prefixRule : Option PrefixFn
  infixRule : Option InfixFn
  precedence : Precedence
  deriving Repr, DecidableEq

/-- Rust `Compiler::get_rule` (src/compiler.rs). -/
def get_rule : TokenType → ParseRule
  | .leftParen => ⟨some .grouping, none, .none⟩
  | .minus => ⟨some .unary, some .binary, .term⟩
  | .plus => ⟨none, some .binary, .term⟩
  | .slash => ⟨none, some .binary, .factor⟩
  | .star => ⟨none, some .binary, .factor⟩
  | .bang => ⟨some .unary, none, .none⟩
  | .bangEqual => ⟨none, some .binary, .equality⟩
  | .equalEqual => ⟨none, some .binary, .equality⟩
  | .greater => ⟨none, some .binary, .comparison⟩
  | .greaterEqual => ⟨none, some .binary, .comparison⟩
  | .less => ⟨none, some .binary, .comparison⟩
  | .lessEqual => ⟨none, some .binary, .comparison⟩
  | .identifier => ⟨some .variableP, none, .none⟩
  | .number => ⟨some .number, none, .none⟩
  | .string => ⟨some .string, none, .none⟩
  | .kFalse => ⟨some .literal, none, .none⟩
  | .kTrue => ⟨some .literal, none, .none⟩
  | .kNil => ⟨some .literal, none, .none⟩
  | _ => ⟨none, none, .none⟩

/-! ## Chunk (src/chunk.rs) -/

/-- enum `OpCode` (src/chunk.rs), `repr(u8)`. -/
inductive OpCode where
  | opConstant | opNil | opTrue | opFalse | opPop | opEqual | opGreater | opLess
  | opAdd | opSubtract | opMultiply | opDivide | opNot | opNegate | opPrint
  | opDefineGlobal | opGetGlobal | opSetGlobal | opGetLocal | opSetLocal
  | opJumpIfFalse | opJump | opLoop | opReturn
  deriving Repr, DecidableEq

/-- The `repr(u8)` discriminant (`as u8`): declaration order from 0. -/
def OpCode.toByte : OpCode → Nat
  | .opConstant => 0
  | .opNil => 1
  | .opTrue => 2
  | .opFalse => 3
  | .opPop => 4
  | .opEqual => 5
  | .opGreater => 6
  | .opLess => 7
  | .opAdd => 8
  | .opSubtract => 9
  | .opMultiply => 10
  | .opDivide => 11
  | .opNot => 12
  | .opNegate => 13
  | .opPrint => 14
  | .opDefineGlobal => 15
  | .opGetGlobal => 16
  | .opSetGlobal => 17
  | .opGetLocal => 18
  | .opSetLocal => 19
  | .opJumpIfFalse => 20
  | .opJump => 21
  | .opLoop => 22
  | .opReturn => 23

/-- struct `Chunk` (src/chunk.rs). -/
structure Chunk where
  code : List Nat
  lines : List Nat
  constants : List Value
  deriving Repr, DecidableEq

/-- Rust `Chunk::new` (src/chunk.rs). -/
def Chunk.new : Chunk := ⟨[], [], []⟩

/-- Rust `Chunk::write` (src/chunk.rs). -/
def Chunk.write (ch : Chunk) (opcode : OpCode) (line : Nat) : Chunk :=
  { ch with code := ch.code ++ [opcode.toByte], lines := ch.lines ++ [line] }

/-- Rust `Chunk::write_byte` (src/chunk.rs). -/
def Chunk.write_byte (ch : Chunk) (byte : Nat) (line : Nat) : Chunk :=
  { ch with code := ch.code ++ [byte], lines := ch.lines ++ [line] }

/-- Rust `Chunk::add_constant` (src/chunk.rs): push and return the new index. -/
def Chunk.add_constant (ch : Chunk) (value : Value) : Chunk × Nat :=
  ({ ch with constants := ch.constants ++ [value] }, ch.constants.length)

/-- Rust `Chunk::get_constant` (src/chunk.rs); `none` models the index panic. -/
def Chunk.get_constant (ch : Chunk) (index : Nat) : Option Value :=
  ch.constants.get? index

/-! ## Compiler state and helpers (src/compiler.rs) -/

/-- struct `Compiler` (src/compiler.rs); `strings` is the interned-strings
table of the `&mut VM`, the only part of the VM the compiler touches. -/
structure Compiler where
  parser : Parser
  chunk : Chunk
  strings : Table
  locals : List Local
  local_count : Nat
  scope_depth : Int
  deriving Repr, DecidableEq

/-- Rust `VM::intern_string` (src/vm.rs): look the content up in the strings
table, otherwise store `(string, Nil)`. -/
def intern_string (strings : Table) (string : String) : Option (Table × String) := do
  let hash := hash_string string
  let found ← strings.find_string string hash
  match found with
  | some interned => pure (strings, interned)
  | none => do
    let (strings, _) ← strings.set string Value.nil
    pure (strings, string)

/-- Rust `Compiler::new` (src/compiler.rs). -/
def Compiler.new (source : String) (strings : Table) : Compiler :=
  ⟨Parser.new (init_scanner source), Chunk.new, strings, [], 0, 0⟩

/-- Rust `Compiler::emit_byte` (src/compiler.rs): writes at
`parser.previous.line as usize`. -/
def Compiler.emit_byte (c : Compiler) (opcode : OpCode) : Compiler :=
  { c with chunk := c.chunk.write opcode c.parser.previous.line.toNat }

/-- Rust `Compiler::emit_bytes` (src/compiler.rs). -/
def Compiler.emit_bytes (c : Compiler) (byte1 : OpCode) (byte2 : Nat) : Compiler :=
  let c := c.emit_byte byte1
  { c with chunk := c.chunk.write_byte byte2 c.parser.previous.line.toNat }

/-- Rust `Compiler::add_local` (src/compiler.rs): refuse at 256 locals, else push
`(name, -1)`. -/
def Compiler.add_local (c : Compiler) (name : String) : Compiler :=
  if c.local_count = 256 then
    { c with parser := c.parser.error "Too many local variables in function." }
  else
    { c with locals := c.locals ++ [⟨name, -1⟩], local_count := c.local_count + 1 }

/-- Rust `Compiler::mark_initialized` (src/compiler.rs): set the depth of the
*last element of the `locals` vector* (not of slot `local_count - 1`). -/
def Compiler.markInitialized (c : Compiler) : Compiler :=
  match c.locals.getLast? with
  | none => c
  | some l =>
    { c with locals := c.locals.set (c.locals.length - 1) { l with depth := c.scope_depth } }

/-- The scan of `Compiler::resolve_local` (src/compiler.rs):
`for i in (0..local_count).rev()`. Returns `Some(i as u8)` on a name match,
reporting the read-own-initializer error when `depth == -1`. -/
def resolveLocalAux (c : Compiler) (name : String) : Nat → Option (Compiler × Option Nat)
  | 0 => some (c, none)
  | i+1 => do
    let l ← c.locals.get? i
    if l.name = name then
      if l.depth = -1 then
        let msg := "Can" ++ quoteStr ++ "t read local variable in its own initializer."
        pure ({ c with parser := c.parser.error msg }, some (i % 256))
      else pure (c, some (i % 256))
    else resolveLocalAux c name i

/-- Rust `Compiler::resolve_local` (src/compiler.rs). -/
def Compiler.resolve_local (c : Compiler) (name : String) :
    Option (Compiler × Option Nat) :=
  resolveLocalAux c name c.local_count

/-- The collision scan of `Compiler::declare_variable` (src/compiler.rs). -/
def declareVariableAux (c : Compiler) (name : String) : Nat → Option Compiler
  | 0 => some c
  | i+1 => do
    let l ← c.locals.get? i
    if l.depth != -1 && l.depth < c.scope_depth then pure c
    else
      let c :=
        if l.name = name then
          { c with parser := c.parser.error "Already a variable with this name in this scope." }
        else c
      declareVariableAux c name i

/-- Rust `Compiler::declare_variable` (src/compiler.rs). -/
def Compiler.declare_variable (c : Compiler) : Option Compiler :=
  if c.scope_depth = 0 then some c
  else do
    let name := c.parser.previous.lexeme
    let c ← declareVariableAux c name c.local_count
    pure (c.add_local name)

/-- Rust `Compiler::identifier_constant` (src/compiler.rs): intern the name, add
it to the constant pool, truncate the index with `as u8`. -/
def Compiler.identifier_constant (c : Compiler) (name : String) :
    Option (Compiler × Nat) := do
  let (strings, interned) ← intern_string c.strings name
  let (chunk, idx) := c.chunk.add_constant (Value.string interned)
  pure ({ c with strings := strings, chunk := chunk }, idx % 256)

/-- Rust `Compiler::parse_variable` (src/compiler.rs). -/
def Compiler.parse_variable (c : Compiler) (error_message : String) :
    Option (Compiler × Nat) := do
  let p ← c.parser.consume .identifier error_message
  let c := { c with parser := p }
  let c ← c.declare_variable
  if c.scope_depth > 0 then pure (c, 0)
  else c.identifier_constant c.parser.previous.lexeme

/-- Rust `Compiler::define_variable` (src/compiler.rs). -/
def Compiler.define_variable (c : Compiler) (global : Nat) : Compiler :=
  if c.scope_depth > 0 then c.markInitialized
  else c.emit_bytes .opDefineGlobal global

/-- Rust `Compiler::emit_constant` (src/compiler.rs): add to the pool, emit
`OpConstant` with the index truncated by `as u8` — no overflow check. -/
def Compiler.emit_constant (c : Compiler) (value : Value) : Compiler :=
  let (chunk, idx) := c.chunk.add_constant value
  ({ c with chunk := chunk }).emit_bytes .opConstant (idx % 256)

/-- Rust `str::parse::<f64>` as used by `Compiler::number` on number
lexemes (digits, optionally `.` digits); exact on such decimal literals. -/
def natOfDigits (cs : List Char) : Option ℕ :=
  if cs = [] then none
  else cs.foldl (fun acc c => do
    let a ← acc
    if is_digit c then pure (a * 10 + (c.toNat - 48)) else none) (some 0)

/-- Parse a number lexeme to the exact rational it denotes. -/
def parseDouble (s : String) : Option NumV :=
  match s.data.span (· ≠ '.') with
  | (intPart, []) => (natOfDigits intPart).map (fun n => ⟨(n : Int), 1⟩)
  | (intPart, _dot :: fracPart) => do
    let i ← natOfDigits intPart
    let f ← natOfDigits fracPart
    pure ⟨((i * 10 ^ fracPart.length + f : Nat) : Int), 10 ^ fracPart.length⟩

/-- Rust `Compiler::number` (src/compiler.rs). -/
def Compiler.numberFn (c : Compiler) : Option Compiler := do
  let value ← parseDouble c.parser.previous.lexeme
  pure (c.emit_constant (.number value))

/-- Rust `Compiler::string` (src/compiler.rs): strip the quotes by byte slicing
`lexeme[1..len-1]`, intern, emit as a constant. -/
def Compiler.stringFn (c : Compiler) : Option Compiler := do
  let lexeme := c.parser.previous.lexeme
  let inner ← byteSlice lexeme 1 (byteLen lexeme - 1)
  let (strings, interned) ← intern_string c.strings inner
  pure (({ c with strings := strings }).emit_constant (.string interned))

/-- Rust `Compiler::literal` (src/compiler.rs); `none` models `unreachable!()`. -/
def Compiler.literalFn (c : Compiler) : Option Compiler :=
  match c.parser.previous.token_type with
  | .kFalse => some (c.emit_byte .opFalse)
  | .kTrue => some (c.emit_byte .opTrue)
  | .kNil => some (c.emit_byte .opNil)
  | _ => none

/-- Rust `Compiler::begin_scope` (src/compiler.rs). -/
def Compiler.begin_scope (c : Compiler) : Compiler :=
  { c with scope_depth := c.scope_depth + 1 }

/-- The `while` loop of `Compiler::end_scope` (src/compiler.rs): emit one
`Pop` per out-of-scope local and decrement `local_count` — the `locals`
vector itself is *not* popped. -/
def endScopeAux : Nat → Compiler → Compiler
  | 0, c => c
  | fuel+1, c =>
    if c.local_count > 0 &&
        (c.locals.getD (c.local_count - 1) ⟨"", 0⟩).depth > c.scope_depth then
      endScopeAux fuel ({ (c.emit_byte .opPop) with local_count := c.local_count - 1 })
    else c

/-- Rust `Compiler::end_scope` (src/compiler.rs). -/
def Compiler.end_scope (c : Compiler) : Compiler :=
  endScopeAux c.local_count { c with scope_depth := c.scope_depth - 1 }

/-- The loop of `Compiler::synchronize` (src/compiler.rs). -/
def synchronizeAux : Nat → Parser → Option Parser
  | 0, _ => none
  | fuel+1, p =>
    if p.current.token_type = .eof then some p
    else if p.previous.token_type = .semicolon then some p
    else match p.current.token_type with
    | .kClass | .kFun | .kVar | .kFor | .kIf | .kWhile | .kPrint | .kReturn => some p
    | _ => do
      let p ← p.advance
      synchronizeAux fuel p

/-- Rust `Compiler::synchronize` (src/compiler.rs). -/
def Compiler.synchronize (c : Compiler) : Option Compiler := do
  let p ← synchronizeAux (byteLen c.parser.scanner.source + 16)
    { c.parser with panic_mode := false }
  pure { c with parser := p }

/-! ## The recursive parse functions (src/compiler.rs)

The source's parse functions are mutually recursive through the rule
table's function pointers. They are embedded as one structurally recursive
interpreter `parseRun` over a defunctionalized request type `PReq` (one
constructor per source function), so that the kernel can unfold them; the
named wrappers below recover the source's signatures. The fuel argument
strictly decreases on every nested call; `none` at fuel 0 models
non-termination (never reached with the fuel supplied by `compile`). -/

/-- One request per mutually recursive parse function of src/compiler.rs. -/
inductive PReq where
  | parsePrec (precedence : Precedence)
  | runPrefix (pf : PrefixFn)
  | infixLoop (precedence : Precedence)
  | binary
  | unary
  | grouping
  | expression
  | variableFn
  | namedVariable (name : String) (can_assign : Bool)
  | declaration
  | varDeclaration
  | statement
  | block
  | printStatement
  | expressionStatement
  deriving Repr, DecidableEq

/-- The bodies of the mutually recursive parse functions (src/compiler.rs),
dispatched on `PReq`; see the named wrappers for the source names. -/
def parseRun : Nat → PReq → Compiler → Option Compiler
  | 0, _, _ => none
  | fuel+1, req, c =>
    match req with
    | .parsePrec precedence => do
      -- `Compiler::parse_precedence`. Note the unconditional trailing check
      -- for `=`: the source does not restrict it to precedence ≤ Assignment.
      let p ← c.parser.advance
      let c := { c with parser := p }
      match (get_rule c.parser.previous.token_type).prefixRule with
      | none => pure { c with parser := c.parser.error "Expect expression." }
      | some pf => do
        let c ← parseRun fuel (.runPrefix pf) c
        let c ← parseRun fuel (.infixLoop precedence) c
        if c.parser.check .equal then
          pure { c with parser := c.parser.error "Invalid assignment target." }
        else pure c
    | .runPrefix pf =>
      -- dispatch of `prefix_fn(self)` through the rule table
      match pf with
      | .grouping => parseRun fuel .grouping c
      | .unary => parseRun fuel .unary c
      | .variableP => parseRun fuel .variableFn c
      | .number => c.numberFn
      | .string => c.stringFn
      | .literal => c.literalFn
    | .infixLoop precedence =>
      -- the `while precedence <= get_rule(current).precedence` loop
      if precedence.toNat ≤ (get_rule c.parser.current.token_type).precedence.toNat then do
        let p ← c.parser.advance
        let c := { c with parser := p }
        let c ← match (get_rule c.parser.previous.token_type).infixRule with
          | some .binary => parseRun fuel .binary c
          | none => pure c
        parseRun fuel (.infixLoop precedence) c
      else pure c
    | .binary => do
      -- `Compiler::binary`; `none` on the default arm models `unreachable!()`
      let operator_type := c.parser.previous.token_type
      let rule := get_rule operator_type
      let c ← parseRun fuel (.parsePrec rule.precedence.next) c
      match operator_type with
      | .bangEqual => pure ((c.emit_byte .opEqual).emit_byte .opNot)
      | .equalEqual => pure (c.emit_byte .opEqual)
      | .greater => pure (c.emit_byte .opGreater)
      | .greaterEqual => pure ((c.emit_byte .opLess).emit_byte .opNot)
      | .less => pure (c.emit_byte .opLess)
      | .lessEqual => pure ((c.emit_byte .opGreater).emit_byte .opNot)
      | .plus => pure (c.emit_byte .opAdd)
      | .minus => pure (c.emit_byte .opSubtract)
      | .star => pure (c.emit_byte .opMultiply)
      | .slash => pure (c.emit_byte .opDivide)
      | _ => none
    | .unary => do
      -- `Compiler::unary`
      let operator_type := c.parser.previous.token_type
      let c ← parseRun fuel (.parsePrec .unary) c
      match operator_type with
      | .bang => pure (c.emit_byte .opNot)
      | .minus => pure (c.emit_byte .opNegate)
      | _ => none
    | .grouping => do
      -- `Compiler::grouping`
      let c ← parseRun fuel .expression c
      let msg := "Expect " ++ quoteStr ++ ")" ++ quoteStr ++ " after expression."
      let p ← c.parser.consume .rightParen msg
      pure { c with parser := p }
    | .expression =>
      -- `Compiler::expression`
      parseRun fuel (.parsePrec .assignment) c
    | .variableFn =>
      -- `Compiler::variable`: the source passes `can_assign = true`
      -- unconditionally, whatever the calling precedence
      parseRun fuel (.namedVariable c.parser.previous.lexeme true) c
    | .namedVariable name can_assign => do
      -- `Compiler::named_variable`
      let (c, res) ← c.resolve_local name
      let (c, arg, get_op, set_op) ←
        match res with
        | some local_idx => pure (c, local_idx, OpCode.opGetLocal, OpCode.opSetLocal)
        | none => do
          let (c, arg) ← c.identifier_constant name
          pure (c, arg, OpCode.opGetGlobal, OpCode.opSetGlobal)
      if can_assign then do
        let (p, matched) ← c.parser.match_token .equal
        let c := { c with parser := p }
        if matched then do
          let c ← parseRun fuel .expression c
          pure (c.emit_bytes set_op arg)
        else pure (c.emit_bytes get_op arg)
      else pure (c.emit_bytes get_op arg)
    | .declaration => do
      -- `Compiler::declaration`
      let (p, m) ← c.parser.match_token .kVar
      let c := { c with parser := p }
      let c ← if m then parseRun fuel .varDeclaration c else parseRun fuel .statement c
      if c.parser.panic_mode then c.synchronize else pure c
    | .varDeclaration => do
      -- `Compiler::var_declaration`
      let (c, global) ← c.parse_variable "Expect variable name."
      let (p, m) ← c.parser.match_token .equal
      let c := { c with parser := p }
      let c ← if m then parseRun fuel .expression c else pure (c.emit_byte .opNil)
      let msg := "Expect " ++ quoteStr ++ ";" ++ quoteStr ++ " after variable declaration."
      let p ← c.parser.consume .semicolon msg
      pure (({ c with parser := p }).define_variable global)
    | .statement => do
      -- `Compiler::statement`
      let (p, m) ← c.parser.match_token .kPrint
      let c := { c with parser := p }
      if m then parseRun fuel .printStatement c
      else do
        let (p, m) ← c.parser.match_token .leftBrace
        let c := { c with parser := p }
        if m then do
          let c := c.begin_scope
          let c ← parseRun fuel .block c
          pure c.end_scope
        else parseRun fuel .expressionStatement c
    | .block =>
      -- `Compiler::block`
      if ! c.parser.check .rightBrace && ! c.parser.check .eof then do
        let c ← parseRun fuel .declaration c
        parseRun fuel .block c
      else do
        let msg := "Expect " ++ quoteStr ++ "\x7d" ++ quoteStr ++ " after block."
        let p ← c.parser.consume .rightBrace msg
        pure { c with parser := p }
    | .printStatement => do
      -- `Compiler::print_statement`
      let c ← parseRun fuel .expression c
      let msg := "Expect " ++ quoteStr ++ ";" ++ quoteStr ++ " after value."
      let p ← c.parser.consume .semicolon msg
      pure (({ c with parser := p }).emit_byte .opPrint)
    | .expressionStatement => do
      -- `Compiler::expression_statement`
      let c ← parseRun fuel .expression c
      let msg := "Expect " ++ quoteStr ++ ";" ++ quoteStr ++ " after expression."
      let p ← c.parser.consume .semicolon msg
      pure (({ c with parser := p }).emit_byte .opPop)

/-- Rust `Compiler::parse_precedence` (src/compiler.rs). -/
def parse_precedence (fuel : Nat) (precedence : Precedence) (c : Compiler) :
    Option Compiler :=
  parseRun fuel (.parsePrec precedence) c

/-- Rust `Compiler::expression` (src/compiler.rs). -/
def expression (fuel : Nat) (c : Compiler) : Option Compiler :=
  parseRun fuel .expression c

/-- Rust `Compiler::declaration` (src/compiler.rs). -/
def declaration (fuel : Nat) (c : Compiler) : Option Compiler :=
  parseRun fuel .declaration c


/-- Rust `Compiler::end_compiler` (src/compiler.rs). -/
def Compiler.end_compiler (c : Compiler) : Compiler := c.emit_byte .opReturn

/-- The `while !check(Eof) declaration` loop of `Compiler::compile`. -/
def compileLoop : Nat → Compiler → Option Compiler
  | 0, _ => none
  | fuel+1, c =>
    if ! c.parser.check .eof then do
      let c ← declaration fuel c
      compileLoop fuel c
    else pure c

/-- Fuel for the parse functions: each unit of nesting or iteration consumes
at least one token, and tokens are bounded by the byte length of the source. -/
def compileFuel (source : String) : Nat := (byteLen source + 32) * 4

/-- Rust `compile` (src/compiler.rs): run the compiler, return the chunk unless
`had_error`, together with the mutated strings table of the `&mut VM`. -/
def compile (source : String) (strings : Table) : Option (Option Chunk × Table) := do
  let c := Compiler.new source strings
  let p ← c.parser.advance
  let c := { c with parser := p }
  let c ← compileLoop (compileFuel source) c
  let c := c.end_compiler
  if c.parser.had_error then pure (none, c.strings)
  else pure (some c.chunk, c.strings)

/-! ## VM (src/vm.rs) -/

/-- enum `InterpretResult` (src/vm.rs). -/
inductive InterpretResult where
  | ok | runtimeError | compileError
  deriving Repr, DecidableEq

/-- struct `VM` (src/vm.rs); `output`/`errLog` accumulate stdout/stderr.
The source's `chunk: Option<Chunk>` starts as `None` and every use unwraps
it; the model starts from the empty chunk, on which every read panics the
same way. -/
structure VM where
  chunk : Chunk
  ip : Nat
  stack : List Value
  strings : Table
  globals : Table
  output : String
  errLog : String
  deriving Repr, DecidableEq

/-- Rust `VM::new` (src/vm.rs). -/
def VM.new : VM := ⟨Chunk.new, 0, [], Table.new, Table.new, "", ""⟩

/-- Rust `VM::read_byte` (src/vm.rs): `code[ip]`, then `ip += 1`; `none` models
the out-of-range panic. -/
def VM.read_byte (vm : VM) : Option (VM × Nat) :=
  (vm.chunk.code.get? vm.ip).map (fun b => ({ vm with ip := vm.ip + 1 }, b))

/-- Rust `VM::read_constant` (src/vm.rs). -/
def VM.read_constant (vm : VM) : Option (VM × Value) := do
  let (vm, index) ← vm.read_byte
  let v ← vm.chunk.get_constant index
  pure (vm, v)

/-- Rust `VM::push` (src/vm.rs): the stack grows at the end of the vector. -/
def VM.push (vm : VM) (value : Value) : VM :=
  { vm with stack := vm.stack ++ [value] }

/-- Rust `VM::pop` (src/vm.rs); `none` models the "Stack underflow" panic. -/
def VM.pop (vm : VM) : Option (VM × Value) :=
  match vm.stack.getLast? with
  | some v => some ({ vm with stack := vm.stack.dropLast }, v)
  | none => none

/-- Rust `VM::peek` (src/vm.rs): `stack[len - 1 - distance]`; `none` models the
underflow/out-of-range panic. -/
def VM.peek (vm : VM) (distance : Nat) : Option Value :=
  if distance + 1 ≤ vm.stack.length then
    vm.stack.get? (vm.stack.length - 1 - distance)
  else none

/-- Rust `VM::runtime_error` (src/vm.rs): message, then `[line N] in script`
from `lines[ip - 1]`, appended to stderr. -/
def VM.runtime_error (vm : VM) (message : String) : Option VM := do
  let line ← vm.chunk.lines.get? (vm.ip - 1)
  pure { vm with errLog := vm.errLog ++ message ++ "\n[line " ++ toString line ++
    "] in script\n" }

/-- Rust `VM::run` (src/vm.rs), fuelled. Every instruction either returns or
moves `ip` strictly forward (there are no arms for the jump opcodes — bytes
20, 21 and 22 fall to the catch-all, which returns `RuntimeError`), so
`code.length + 2` fuel is always enough. -/
def runLoop : Nat → VM → Option (InterpretResult × VM)
  | 0, _ => none
  | fuel+1, vm => do
    let (vm, instruction) ← vm.read_byte
    if instruction = OpCode.opConstant.toByte then do
      let (vm, constant) ← vm.read_constant
      runLoop fuel (vm.push constant)
    else if instruction = OpCode.opNil.toByte then
      runLoop fuel (vm.push .nil)
    else if instruction = OpCode.opTrue.toByte then
      runLoop fuel (vm.push (.bool true))
    else if instruction = OpCode.opFalse.toByte then
      runLoop fuel (vm.push (.bool false))
    else if instruction = OpCode.opPop.toByte then do
      let (vm, _) ← vm.pop
      runLoop fuel vm
    else if instruction = OpCode.opEqual.toByte then do
      let (vm, b) ← vm.pop
      let (vm, a) ← vm.pop
      runLoop fuel (vm.push (.bool (valueEq a b)))
    else if instruction = OpCode.opGreater.toByte then do
      let p0 ← vm.peek 0
      if ! p0.is_number then do
        let vm ← vm.runtime_error "Operands must be numbers."
        pure (.runtimeError, vm)
      else do
        let p1 ← vm.peek 1
        if ! p1.is_number then do
          let vm ← vm.runtime_error "Operands must be numbers."
          pure (.runtimeError, vm)
        else do
          let (vm, bv) ← vm.pop
          let b ← bv.as_number
          let (vm, av) ← vm.pop
          let a ← av.as_number
          runLoop fuel (vm.push (.bool (numGt a b)))
    else if instruction = OpCode.opLess.toByte then do
      let p0 ← vm.peek 0
      if ! p0.is_number then do
        let vm ← vm.runtime_error "Operands must be numbers."
        pure (.runtimeError, vm)
      else do
        let p1 ← vm.peek 1
        if ! p1.is_number then do
          let vm ← vm.runtime_error "Operands must be numbers."
          pure (.runtimeError, vm)
        else do
          let (vm, bv) ← vm.pop
          let b ← bv.as_number
          let (vm, av) ← vm.pop
          let a ← av.as_number
          runLoop fuel (vm.push (.bool (numLt a b)))
    else if instruction = OpCode.opNot.toByte then do
      let (vm, value) ← vm.pop
      runLoop fuel (vm.push (.bool value.is_falsey))
    else if instruction = OpCode.opNegate.toByte then do
      let p0 ← vm.peek 0
      if ! p0.is_number then do
        let vm ← vm.runtime_error "Operand must be a number."
        pure (.runtimeError, vm)
      else do
        let (vm, v) ← vm.pop
        let value ← v.as_number
        runLoop fuel (vm.push (.number (numNeg value)))
    else if instruction = OpCode.opAdd.toByte then do
      let p0 ← vm.peek 0
      let strCase ←
        if p0.is_string then do
          let p1 ← vm.peek 1
          pure p1.is_string
        else pure false
      if strCase then do
        let (vm, b) ← vm.pop
        let (vm, a) ← vm.pop
        let sa ← a.as_string
        let sb ← b.as_string
        runLoop fuel (vm.push (.string (sa ++ sb)))
      else do
        let numCase ←
          if p0.is_number then do
            let p1 ← vm.peek 1
            pure p1.is_number
          else pure false
        if numCase then do
          let (vm, bv) ← vm.pop
          let b ← bv.as_number
          let (vm, av) ← vm.pop
          let a ← av.as_number
          runLoop fuel (vm.push (.number (numAdd a b)))
        else do
          let vm ← vm.runtime_error "Operands must be two numbers or two strings."
          pure (.runtimeError, vm)
    else if instruction = OpCode.opSubtract.toByte then do
      let p0 ← vm.peek 0
      if ! p0.is_number then do
        let vm ← vm.runtime_error "Operands must be numbers."
        pure (.runtimeError, vm)
      else do
        let p1 ← vm.peek 1
        if ! p1.is_number then do
          let vm ← vm.runtime_error "Operands must be numbers."
          pure (.runtimeError, vm)
        else do
          let (vm, bv) ← vm.pop
          let b ← bv.as_number
          let (vm, av) ← vm.pop
          let a ← av.as_number
          runLoop fuel (vm.push (.number (numSub a b)))
    else if instruction = OpCode.opMultiply.toByte then do
      let p0 ← vm.peek 0
      if ! p0.is_number then do
        let vm ← vm.runtime_error "Operands must be numbers."
        pure (.runtimeError, vm)
      else do
        let p1 ← vm.peek 1
        if ! p1.is_number then do
          let vm ← vm.runtime_error "Operands must be numbers."
          pure (.runtimeError, vm)
        else do
          let (vm, bv) ← vm.pop
          let b ← bv.as_number
          let (vm, av) ← vm.pop
          let a ← av.as_number
          runLoop fuel (vm.push (.number (numMul a b)))
    else if instruction = OpCode.opDivide.toByte then do
      let p0 ← vm.peek 0
      if ! p0.is_number then do
        let vm ← vm.runtime_error "Operands must be numbers."
        pure (.runtimeError, vm)
      else do
        let p1 ← vm.peek 1
        if ! p1.is_number then do
          let vm ← vm.runtime_error "Operands must be numbers."
          pure (.runtimeError, vm)
        else do
          let (vm, bv) ← vm.pop
          let b ← bv.as_number
          let (vm, av) ← vm.pop
          let a ← av.as_number
          runLoop fuel (vm.push (.number (numDiv a b)))
    else if instruction = OpCode.opPrint.toByte then do
      let (vm, v) ← vm.pop
      runLoop fuel { vm with output := vm.output ++ print_value v ++ "\n" }
    else if instruction = OpCode.opDefineGlobal.toByte then do
      let (vm, constant) ← vm.read_constant
      let name ← constant.as_string
      let (vm, value) ← vm.pop
      let (globals, _) ← vm.globals.set name value
      runLoop fuel { vm with globals := globals }
    else if instruction = OpCode.opGetGlobal.toByte then do
      let (vm, constant) ← vm.read_constant
      let name ← constant.as_string
      let r ← vm.globals.get name
      match r with
      | some value => runLoop fuel (vm.push value)
      | none => do
        let vm ← vm.runtime_error
          ("Undefined variable " ++ quoteStr ++ name ++ quoteStr ++ ".")
        pure (.runtimeError, vm)
    else if instruction = OpCode.opSetGlobal.toByte then do
      let (vm, constant) ← vm.read_constant
      let name ← constant.as_string
      let p0 ← vm.peek 0
      let (globals, is_new) ← vm.globals.set name p0
      let vm := { vm with globals := globals }
      if is_new then do
        let (globals, _) ← vm.globals.delete name
        let vm := { vm with globals := globals }
        let vm ← vm.runtime_error
          ("Undefined variable " ++ quoteStr ++ name ++ quoteStr ++ ".")
        pure (.runtimeError, vm)
      else runLoop fuel vm
    else if instruction = OpCode.opGetLocal.toByte then do
      let (vm, slot) ← vm.read_byte
      let v ← vm.stack.get? slot
      runLoop fuel (vm.push v)
    else if instruction = OpCode.opSetLocal.toByte then do
      let (vm, slot) ← vm.read_byte
      let p0 ← vm.peek 0
      if slot < vm.stack.length then
        runLoop fuel { vm with stack := vm.stack.set slot p0 }
      else none
    else if instruction = OpCode.opReturn.toByte then
      pure (.ok, vm)
    else
      pure (.runtimeError, vm)

/-- Rust `VM::interpret` (src/vm.rs): install the chunk, reset `ip`, run. -/
def VM.interpret (vm : VM) (chunk : Chunk) : Option (InterpretResult × VM) :=
  runLoop (chunk.code.length + 2) { vm with chunk := chunk, ip := 0 }

/-- Rust `interpret` (src/main.rs): compile (sharing the VM's strings table),
then run the chunk, or report a compile error. -/
def interpretSource (source : String) (vm : VM) : Option (InterpretResult × VM) := do
  let (chunkOpt, strings) ← compile source vm.strings
  let vm := { vm with strings := strings }
  match chunkOpt with
  | some chunk => vm.interpret chunk
  | none => pure (.compileError, vm)

/-! ## Claim theorems (concrete evaluations) -/

/-- C1. The claim says the VM executes `JumpIfFalse`/`Jump`/`Loop` (bytes
20/21/22) by adjusting `ip` and continuing. In the code, `VM::run` has no
match arm for any jump opcode: each falls to the catch-all, which returns
`RuntimeError` immediately (here at `ip = 2` resp. `ip = 1`, the operand
bytes unread, the falsey top of stack untouched). -/
theorem jump_opcodes_fall_to_catch_all :
    (VM.new.interpret ⟨[3, 20, 0, 1, 23], [1, 1, 1, 1, 1], []⟩).map
        (fun r => (r.1, r.2.ip, r.2.stack)) =
      some (InterpretResult.runtimeError, 2, [Value.bool false]) ∧
    (VM.new.interpret ⟨[21, 0, 1, 23], [1, 1, 1, 1], []⟩).map
        (fun r => (r.1, r.2.ip)) = some (InterpretResult.runtimeError, 1) ∧
    (VM.new.interpret ⟨[22, 0, 1, 23], [1, 1, 1, 1], []⟩).map
        (fun r => (r.1, r.2.ip)) = some (InterpretResult.runtimeError, 1) := by
  refine ⟨by decide, by decide, by decide⟩

/-- C2. The claim says every lowercase letter may start an identifier and
`and` scans as the keyword `And`. In the code, `is_alpha` tests `c > 'a'`
(strict), so `'a'` is not alpha: scanning `and` yields an `Error` token
with the diagnostic `Unexpected character.`. -/
theorem scan_token_rejects_letter_a :
    is_alpha 'a' = false ∧
    (Scanner.scan_token (init_scanner "and")).map
        (fun r => (r.2.token_type, r.2.lexeme, r.2.line)) =
      some (TokenType.error, "Unexpected character.", 1) := by
  refine ⟨by decide, by decide⟩

/-- The bytecode of `x = 1;` (constants `"x"`, `1`): Constant 1, SetGlobal
"x", Pop, Return. Used to exercise `OpSetGlobal` on a persistent VM. -/
def chunkAssignX : Chunk :=
  ⟨[0, 1, 17, 0, 4, 23], [1, 1, 1, 1, 1, 1], [Value.string "x", Value.number ⟨1, 1⟩]⟩

/-- C3. The claim says `Table::set` returns true exactly when the key was
not live, including across a `Tombstone`, and that `SetGlobal` on a name
whose slot is a rollback tombstone raises the undefined-variable error.
In the code, `is_new_key` tests `Entry::Empty` only: after set/delete the
key is dead, yet re-`set` returns `false`; consequently a second `x = 1;`
on the same VM (whose first run rolled back and left a tombstone) is
accepted with `Ok` and silently defines the global. -/
theorem table_set_misreports_new_key_over_tombstone :
    (do
      let (t1, b1) ← Table.new.set "x" (Value.number ⟨1, 1⟩)
      let (t2, _) ← t1.delete "x"
      let live ← t2.get "x"
      let (_, b3) ← t2.set "x" (Value.number ⟨2, 1⟩)
      pure (b1, live, b3)) = some (true, none, false) ∧
    (do
      let (r1, vm1) ← VM.new.interpret chunkAssignX
      let (r2, vm2) ← vm1.interpret chunkAssignX
      pure (r1, r2, vm2.errLog, vm2.globals.get "x")) =
      some (InterpretResult.runtimeError, InterpretResult.ok,
        "Undefined variable " ++ quoteStr ++ "x" ++ quoteStr ++ ".\n[line 1] in script\n",
        some (some (Value.number ⟨1, 1⟩))) := by
  refine ⟨by decide, by decide⟩

/-- C4. `print 1 + 2 * 3;` compiles and runs to `Ok`, writing exactly `7`
and a newline: the Pratt table parses `*` tighter than `+`, and the
integral double prints without a trailing `.0`. -/
theorem print_one_plus_two_times_three :
    (interpretSource "print 1 + 2 * 3;" VM.new).map
        (fun r => (r.1, r.2.output, r.2.errLog)) =
      some (InterpretResult.ok, "7\n", "") := by
  decide

/-- C5. The claim says a non-assignable target followed by `=` under
precedence ≤ Assignment is reported as `Invalid assignment target.` and
never silently compiled. In the code, `Compiler::variable` passes
`can_assign = true` unconditionally, so in `x+b = c;` the identifier `b`
(parsed at `Factor` precedence, the right operand of `+`) happily consumes
`=`: compilation succeeds with no error and the chunk encodes
`x + (b = c)` — GetGlobal x, GetGlobal c, SetGlobal b, Add, Pop, Return. -/
theorem invalid_assignment_target_not_reported :
    (compile "x+b = c;" Table.new).map
        (fun r => r.1.map (fun ch => (ch.code, ch.constants))) =
      some (some ([16, 0, 16, 2, 17, 1, 8, 4, 23],
        [Value.string "x", Value.string "b", Value.string "c"])) := by
  decide

/-- C6. The claim says `end_scope` removes each out-of-scope local from the
Locals stack, so later resolution is never blocked by (and never matches)
a stale entry. In the code, `end_scope` decrements `local_count` but never
pops `locals`: after closing `{ var x = ...; }` the entry `("x", 1)` stays
at index 0, so a later `var b` at the same nesting lands at vector index 1
while `resolve_local` scans indices below `local_count = 1` — it resolves
`"x"` (stale, slot 0) and fails to resolve `"b"` (returns `none`,
compiling it as a global). Exactly one `Pop` per removed local is emitted,
as claimed. -/
theorem end_scope_leaves_stale_local :
    (let c := ((((Compiler.new "" Table.new).begin_scope).add_local
        "x").markInitialized).end_scope
     c.locals = [⟨"x", 1⟩] ∧ c.local_count = 0 ∧
       c.chunk.code = [OpCode.opPop.toByte] ∧
       (let c2 := ((c.begin_scope).add_local "b").markInitialized
        c2.resolve_local "b" = some (c2, none) ∧
          c2.resolve_local "x" = some (c2, some 0))) := by
  refine ⟨by decide, by decide, by decide, by decide, by decide⟩

set_option maxRecDepth 8000 in
/-- C7. The claim says constant-pool overflow past 256 entries is caught at
compile time and 1-byte operands always denote the entry just added. In
the code, neither `Chunk::add_constant` nor `Compiler::emit_constant`
checks anything: with 256 constants already pooled, `add_constant` returns
index 256, and `emit_constant` truncates it with `as u8` to the operand
byte 0 — aliasing constant 0 — while `had_error` stays false. -/
theorem emit_constant_truncates_index_256 :
    (let c : Compiler :=
      { Compiler.new "" Table.new with
          chunk := ⟨[], [], List.replicate 256 Value.nil⟩ }
     (c.chunk.add_constant (Value.number ⟨5, 1⟩)).2 = 256 ∧
       (let c2 := c.emit_constant (Value.number ⟨5, 1⟩)
        c2.chunk.constants.length = 257 ∧ c2.chunk.code = [0, 0] ∧
          c2.parser.had_error = false)) := by
  refine ⟨by decide, by decide, by decide, by decide⟩

/-- C9. The claim says `scan_token` never panics on valid UTF-8 and scans a
string literal with non-ASCII characters into a `String` token carrying the
whole quoted text. In the code, `start`/`current` are byte offsets while
`chars().nth` counts characters: on the source `"éé"` the quote is found
after 3 characters (byte offset 4, inside the second two-byte `é`), so
`make_token` byte-slices at a non-boundary and panics; on `"é"` the scan
survives but the lexeme drops the closing quote. -/
theorem scan_token_panics_on_multibyte_string :
    Scanner.scan_token (init_scanner "\"éé\"") = none ∧
    (Scanner.scan_token (init_scanner "\"é\"")).map
        (fun r => (r.2.token_type, r.2.lexeme)) =
      some (TokenType.string, "\"é") := by
  refine ⟨by decide, by decide⟩

/-! ## Correctness of the hash table (src/table.rs)

The remainder of the development proves that `Table.set` / `Table.delete` /
`Table.get` implement a finite map, for arbitrary operation sequences from
`Table.new`, across capacity growth and tombstones, and that every probe
loop terminates. The invariant carried through is:

* `count` equals the number of non-`Empty` slots;
* when the capacity is non-zero it is at least 8 and strictly exceeds the
  number of non-`Empty` slots (so a probe always reaches an `Empty` slot);
* occupied keys are pairwise distinct;
* every occupied slot is reachable from its hash position by a linear probe
  that meets no `Empty` slot on the way.
-/

/-- The number of non-`Empty` slots. -/
def nonEmptyCount (es : List Entry) : Nat :=
  es.countP (fun e => decide (e ≠ Entry.empty))

/-- The occupied `(key, value)` pairs, in slot order. -/
def occList (es : List Entry) : List (String × Value) :=
  es.filterMap (fun e => match e with
    | .occupied k v => some (k, v)
    | _ => none)

/-- The number of occupied slots. -/
def occCount (es : List Entry) : Nat := (occList es).length

/-- Occupied keys are pairwise distinct (out-of-range `getD` yields
`Entry.empty`, so no bounds are needed). -/
def HKeys (es : List Entry) : Prop :=
  ∀ i j k v v', i ≠ j → es.getD i .empty = .occupied k v →
    es.getD j .empty ≠ .occupied k v'

/-- Every occupied slot lies on the probe path of its key's hash, with no
`Empty` slot strictly before it. -/
def HProbe (es : List Entry) : Prop :=
  ∀ i k v, es.getD i .empty = .occupied k v →
    ∃ jk, jk < es.length ∧ i = (hash_string k + jk) % es.length ∧
      ∀ j', j' < jk → es.getD ((hash_string k + j') % es.length) .empty ≠ .empty

/-- The table's slots realize the abstract map `m`. -/
def Linked (es : List Entry) (m : String → Option Value) : Prop :=
  ∀ k, match m k with
    | some v => ∃ i, es.getD i .empty = .occupied k v
    | none => ∀ i v, es.getD i .empty ≠ .occupied k v

/-- The reachability invariant of `Table` (src/table.rs). -/
structure TableInv (t : Table) : Prop where
  hcnt : t.count = nonEmptyCount t.entries
  hlt : t.entries.length ≠ 0 → nonEmptyCount t.entries < t.entries.length
  hcap : t.entries.length = 0 ∨ 8 ≤ t.entries.length
  hkeys : HKeys t.entries
  hprobe : HProbe t.entries

/-- One mutating table operation. -/
inductive TOp where
  | setOp (k : String) (v : Value)
  | delOp (k : String)
  deriving Repr, DecidableEq

/-- Run a sequence of operations from a given table; `none` if any probe
loop diverges. -/
def runOpsFrom (t : Table) : List TOp → Option Table
  | [] => some t
  | op :: ops => do
    let t' ←
      match op with
      | .setOp k v => (t.set k v).map Prod.fst
      | .delOp k => (t.delete k).map Prod.fst
    runOpsFrom t' ops

/-- Run a sequence of operations from `Table::new`. -/
def runOps (ops : List TOp) : Option Table := runOpsFrom Table.new ops

/-- The specification map: the most recently set value for `key`, unless a
later delete removed it. -/
def expectedLookup (ops : List TOp) (key : String) : Option Value :=
  ops.foldl (fun acc op =>
    match op with
    | .setOp k v => if k = key then some v else acc
    | .delOp k => if k = key then none else acc) none

/-- Rust `expectedLookup` as a map transformer, for the induction. -/
def mUpdate (m : String → Option Value) : TOp → String → Option Value
  | .setOp k v => fun q => if k = q then some v else m q
  | .delOp k => fun q => if k = q then none else m q

/-- Apply a whole sequence to an abstract map. -/
def mApply : List TOp → (String → Option Value) → String → Option Value
  | [], m => m
  | op :: ops, m => mApply ops (mUpdate m op)

theorem mApply_foldl : ∀ (ops : List TOp) (m : String → Option Value) (key : String),
    mApply ops m key = ops.foldl (fun acc op =>
      match op with
      | .setOp k v => if k = key then some v else acc
      | .delOp k => if k = key then none else acc) (m key) := by
  intro ops
  induction ops with
  | nil => intro m key; rfl
  | cons op ops ih =>
    intro m key
    cases op with
    | setOp k v =>
      simp only [mApply, List.foldl_cons, ih, mUpdate]
    | delOp k =>
      simp only [mApply, List.foldl_cons, ih, mUpdate]

theorem expectedLookup_eq_mApply (ops : List TOp) (key : String) :
    expectedLookup ops key = mApply ops (fun _ => none) key := by
  rw [mApply_foldl]; rfl

/-! ### Slot bookkeeping lemmas -/

theorem getD_set_self {es : List Entry} {i : Nat} (e d : Entry) (h : i < es.length) :
    (es.set i e).getD i d = e := by
  simp [List.getD, List.getElem?_set_self', h]

theorem getD_set_ne {es : List Entry} {i j : Nat} (e d : Entry) (h : i ≠ j) :
    (es.set i e).getD j d = es.getD j d := by
  simp [List.getD, List.getElem?_set_ne h]

theorem getD_len_le {es : List Entry} {i : Nat} (d : Entry) (h : es.length ≤ i) :
    es.getD i d = d :=
  List.getD_eq_default es d h

theorem nonEmptyCount_le (es : List Entry) : nonEmptyCount es ≤ es.length :=
  List.countP_le_length _

theorem exists_empty_of_lt : ∀ (es : List Entry),
    nonEmptyCount es < es.length → ∃ i, i < es.length ∧ es.getD i .empty = .empty := by
  intro es
  induction es with
  | nil => intro h; simp at h
  | cons e es ih =>
    intro h
    by_cases he : e = Entry.empty
    · exact ⟨0, by simp, by simp [he, List.getD]⟩
    · have : nonEmptyCount es < es.length := by
        have hc : nonEmptyCount (e :: es) = nonEmptyCount es + 1 := by
          simp [nonEmptyCount, List.countP_cons, he]
        simp only [List.length_cons] at h
        omega
      obtain ⟨i, hi, hslot⟩ := ih this
      exact ⟨i + 1, by simpa using hi, by simpa [List.getD] using hslot⟩

theorem nonEmptyCount_set_of_ne {es : List Entry} {i : Nat} {e' : Entry}
    (hi : i < es.length) (hold : es.getD i .empty ≠ .empty) (hnew : e' ≠ .empty) :
    nonEmptyCount (es.set i e') = nonEmptyCount es := by
  induction es generalizing i with
  | nil => simp at hi
  | cons e es ih =>
    cases i with
    | zero =>
      have he : e ≠ Entry.empty := by simpa [List.getD] using hold
      simp [nonEmptyCount, List.countP_cons, he, hnew]
    | succ i =>
      have hi' : i < es.length := by simpa using hi
      have hold' : es.getD i .empty ≠ .empty := by simpa [List.getD] using hold
      have := ih hi' hold'
      simp only [List.set_cons_succ, nonEmptyCount, List.countP_cons] at *
      omega

theorem nonEmptyCount_set_of_empty {es : List Entry} {i : Nat} {e' : Entry}
    (hi : i < es.length) (hold : es.getD i .empty = .empty) (hnew : e' ≠ .empty) :
    nonEmptyCount (es.set i e') = nonEmptyCount es + 1 := by
  induction es generalizing i with
  | nil => simp at hi
  | cons e es ih =>
    cases i with
    | zero =>
      have he : e = Entry.empty := by simpa [List.getD] using hold
      simp [nonEmptyCount, List.countP_cons, he, hnew]
    | succ i =>
      have hi' : i < es.length := by simpa using hi
      have hold' : es.getD i .empty = .empty := by simpa [List.getD] using hold
      have := ih hi' hold'
      simp only [List.set_cons_succ, nonEmptyCount, List.countP_cons] at *
      omega

/-! ### Probe position arithmetic -/

theorem pos_lt {len : Nat} (h j : Nat) (hlen : len ≠ 0) : (h + j) % len < len :=
  Nat.mod_lt _ (Nat.pos_of_ne_zero hlen)

theorem pos_inj {len : Nat} (h : Nat) {j1 j2 : Nat} (h1 : j1 < len) (h2 : j2 < len)
    (heq : (h + j1) % len = (h + j2) % len) : j1 = j2 := by
  have hm : j1 % len = j2 % len := Nat.ModEq.add_left_cancel' h heq
  rwa [Nat.mod_eq_of_lt h1, Nat.mod_eq_of_lt h2] at hm

theorem pos_cover {len : Nat} (h : Nat) (hlen : len ≠ 0) {i : Nat} (hi : i < len) :
    ∃ j, j < len ∧ (h + j) % len = i := by
  have hpos : 0 < len := Nat.pos_of_ne_zero hlen
  have h0 : h % len < len := Nat.mod_lt _ hpos
  have hle : h % len ≤ i + len := le_trans (le_of_lt h0) (Nat.le_add_left _ _)
  refine ⟨(i + len - h % len) % len, Nat.mod_lt _ hpos, ?_⟩
  have e1 : h + (i + len - h % len) % len ≡ h + (i + len - h % len) [MOD len] :=
    Nat.ModEq.add_left h (Nat.mod_modEq _ _)
  have e2 : h + (i + len - h % len) ≡ h % len + (i + len - h % len) [MOD len] :=
    Nat.ModEq.add_right _ (Nat.mod_modEq h len).symm
  have e3 : h % len + (i + len - h % len) = i + len := Nat.add_sub_cancel' hle
  have e4 : (h + (i + len - h % len) % len) % len = (i + len) % len := by
    have e5 := e1.trans e2
    rw [e3] at e5
    exact e5
  rw [e4, Nat.add_mod_right, Nat.mod_eq_of_lt hi]

/-! ### Probe scan lemmas -/

theorem findEntryAux_finds {es : List Entry} {key : String} {hash : Nat} {v : Value}
    {jk : Nat}
    (hk : es.getD ((hash + jk) % es.length) .empty = .occupied key v)
    (hbef : ∀ j, j < jk →
      es.getD ((hash + j) % es.length) .empty ≠ .empty ∧
      ∀ k' v', es.getD ((hash + j) % es.length) .empty = .occupied k' v' → k' ≠ key) :
    ∀ fuel j tomb, j ≤ jk → jk < j + fuel →
      findEntryAux es key hash fuel j tomb = some ((hash + jk) % es.length) := by
  intro fuel
  induction fuel with
  | zero => intro j tomb hj hfuel; omega
  | succ fuel ih =>
    intro j tomb hj hfuel
    rcases Nat.eq_or_lt_of_le hj with heq | hlt
    · subst heq
      simp only [findEntryAux, hk]
      simp
    · have hb := hbef j hlt
      cases hslot : es.getD ((hash + j) % es.length) .empty with
      | empty => exact absurd hslot hb.1
      | occupied k' v' =>
        have hne : k' ≠ key := hb.2 _ _ hslot
        simp only [findEntryAux, hslot, if_neg hne]
        exact ih (j+1) tomb hlt (by omega)
      | tombstone =>
        simp only [findEntryAux, hslot]
        exact ih (j+1) _ hlt (by omega)

theorem findEntryAux_miss {es : List Entry} {key : String} {hash : Nat} {j0 : Nat}
    (h0 : es.getD ((hash + j0) % es.length) .empty = .empty)
    (hbef : ∀ j, j < j0 →
      es.getD ((hash + j) % es.length) .empty ≠ .empty ∧
      ∀ k' v', es.getD ((hash + j) % es.length) .empty = .occupied k' v' → k' ≠ key) :
    ∀ fuel j tomb, j ≤ j0 → j0 < j + fuel →
      (tomb = none ∨ ∃ jt, jt ≤ j0 ∧
        es.getD ((hash + jt) % es.length) .empty = .tombstone ∧
        tomb = some ((hash + jt) % es.length)) →
      ∃ jr, jr ≤ j0 ∧
        (es.getD ((hash + jr) % es.length) .empty = .empty ∨
          es.getD ((hash + jr) % es.length) .empty = .tombstone) ∧
        findEntryAux es key hash fuel j tomb = some ((hash + jr) % es.length) := by
  intro fuel
  induction fuel with
  | zero => intro j tomb hj hfuel; omega
  | succ fuel ih =>
    intro j tomb hj hfuel htomb
    rcases Nat.eq_or_lt_of_le hj with heq | hlt
    · subst heq
      rcases htomb with h | ⟨jt, hjt, hslotT, rfl⟩
      · subst h
        refine ⟨j, le_refl _, Or.inl h0, ?_⟩
        simp only [findEntryAux, h0]
        rfl
      · refine ⟨jt, hjt, Or.inr hslotT, ?_⟩
        simp only [findEntryAux, h0]
        rfl
    · have hb := hbef j hlt
      cases hslot : es.getD ((hash + j) % es.length) .empty with
      | empty => exact absurd hslot hb.1
      | occupied k' v' =>
        have hne : k' ≠ key := hb.2 _ _ hslot
        simp only [findEntryAux, hslot, if_neg hne]
        exact ih (j+1) tomb hlt (by omega) htomb
      | tombstone =>
        simp only [findEntryAux, hslot]
        refine ih (j+1) _ hlt (by omega) ?_
        rcases htomb with h | ⟨jt, hjt, hslotT, rfl⟩
        · subst h
          exact Or.inr ⟨j, le_of_lt hlt, hslot, rfl⟩
        · exact Or.inr ⟨jt, hjt, hslotT, rfl⟩

theorem findEntryInAux_firstEmpty {es : List Entry} {key : String} {hash : Nat}
    {j0 : Nat}
    (h0 : es.getD ((hash + j0) % es.length) .empty = .empty)
    (hbef : ∀ j, j < j0 → ∃ k' v',
      es.getD ((hash + j) % es.length) .empty = .occupied k' v' ∧ k' ≠ key) :
    ∀ fuel j, j ≤ j0 → j0 < j + fuel →
      findEntryInAux es key hash fuel j = some ((hash + j0) % es.length) := by
  intro fuel
  induction fuel with
  | zero => intro j hj hfuel; omega
  | succ fuel ih =>
    intro j hj hfuel
    rcases Nat.eq_or_lt_of_le hj with heq | hlt
    · subst heq
      simp only [findEntryInAux, h0]
    · obtain ⟨k', v', hslot, hne⟩ := hbef j hlt
      simp only [findEntryInAux, hslot, if_neg hne]
      exact ih (j+1) hlt (by omega)

theorem findStringAux_ne_none {es : List Entry} {s : String} {hash : Nat} {j0 : Nat}
    (h0 : es.getD ((hash + j0) % es.length) .empty = .empty) :
    ∀ fuel j, j ≤ j0 → j0 < j + fuel →
      findStringAux es s hash fuel j ≠ none := by
  intro fuel
  induction fuel with
  | zero => intro j hj hfuel; omega
  | succ fuel ih =>
    intro j hj hfuel
    cases hslot : es.getD ((hash + j) % es.length) .empty with
    | empty =>
      simp only [findStringAux, hslot]
      simp
    | occupied k v =>
      have hne : j ≠ j0 := by
        intro h
        subst h
        rw [h0] at hslot
        cases hslot
      have hlt : j < j0 := lt_of_le_of_ne hj hne
      by_cases hk : k = s
      · simp only [findStringAux, hslot, if_pos hk]
        simp
      · simp only [findStringAux, hslot, if_neg hk]
        exact ih (j+1) hlt (by omega)
    | tombstone =>
      have hne : j ≠ j0 := by
        intro h
        subst h
        rw [h0] at hslot
        cases hslot
      have hlt : j < j0 := lt_of_le_of_ne hj hne
      simp only [findStringAux, hslot]
      exact ih (j+1) hlt (by omega)

/-- Under the load-factor invariant there is a first empty step on every
probe path. -/
theorem exists_first_empty {es : List Entry} (hash : Nat) (hlen : es.length ≠ 0)
    (hex : nonEmptyCount es < es.length) :
    ∃ j0, j0 < es.length ∧ es.getD ((hash + j0) % es.length) .empty = .empty ∧
      ∀ j, j < j0 → es.getD ((hash + j) % es.length) .empty ≠ .empty := by
  obtain ⟨i, hi, hempty⟩ := exists_empty_of_lt es hex
  obtain ⟨j, hj, hposj⟩ := pos_cover hash hlen hi
  have hP : ∃ j', es.getD ((hash + j') % es.length) .empty = .empty :=
    ⟨j, by rw [hposj]; exact hempty⟩
  refine ⟨Nat.find hP, ?_, Nat.find_spec hP, fun j' hj' => Nat.find_min hP hj'⟩
  exact lt_of_le_of_lt (Nat.find_min' hP (by rw [hposj]; exact hempty)) hj

/-! ### Occupied-slot helpers -/

/-- Some slot holds `(k, v)`. -/
def esHas (es : List Entry) (k : String) (v : Value) : Prop :=
  ∃ i, es.getD i .empty = .occupied k v

theorem esHas_set_iff {es : List Entry} {p : Nat} (hp : p < es.length)
    (e' : Entry) (k0 : String) (v0 : Value) :
    esHas (es.set p e') k0 v0 ↔
      ((∃ i, i ≠ p ∧ es.getD i .empty = .occupied k0 v0) ∨ e' = .occupied k0 v0) := by
  constructor
  · rintro ⟨i, hi⟩
    by_cases h : i = p
    · subst h
      rw [getD_set_self _ _ hp] at hi
      exact Or.inr hi
    · rw [getD_set_ne _ _ (fun he => h he.symm)] at hi
      exact Or.inl ⟨i, h, hi⟩
  · rintro (⟨i, hne, hi⟩ | rfl)
    · exact ⟨i, by rw [getD_set_ne _ _ (fun he => hne he.symm)]; exact hi⟩
    · exact ⟨p, by rw [getD_set_self _ _ hp]⟩

theorem mem_occList {es : List Entry} {k : String} {v : Value} :
    (k, v) ∈ occList es ↔ esHas es k v := by
  induction es with
  | nil =>
    simp only [occList, List.filterMap_nil, List.not_mem_nil, false_iff]
    rintro ⟨i, hi⟩
    rw [getD_len_le _ (Nat.zero_le i)] at hi
    cases hi
  | cons e es ih =>
    cases e with
    | occupied k' v' =>
      simp only [occList, List.filterMap_cons] at *
      constructor
      · intro h
        rcases List.mem_cons.mp h with h' | h'
        · rw [Prod.mk.injEq] at h'
          obtain ⟨h1, h2⟩ := h'
          subst h1; subst h2
          exact ⟨0, by simp [List.getD]⟩
        · obtain ⟨i, hi⟩ := ih.mp h'
          exact ⟨i + 1, by simpa [List.getD_cons_succ] using hi⟩
      · rintro ⟨i, hi⟩
        cases i with
        | zero =>
          simp only [List.getD_cons_zero] at hi
          cases hi
          exact List.mem_cons_self _ _
        | succ i =>
          rw [List.getD_cons_succ] at hi
          exact List.mem_cons_of_mem _ (ih.mpr ⟨i, hi⟩)
    | empty =>
      simp only [occList, List.filterMap_cons] at *
      rw [ih]
      constructor
      · rintro ⟨i, hi⟩
        exact ⟨i + 1, by simpa [List.getD_cons_succ] using hi⟩
      · rintro ⟨i, hi⟩
        cases i with
        | zero => simp [List.getD_cons_zero] at hi
        | succ i =>
          rw [List.getD_cons_succ] at hi
          exact ⟨i, hi⟩
    | tombstone =>
      simp only [occList, List.filterMap_cons] at *
      rw [ih]
      constructor
      · rintro ⟨i, hi⟩
        exact ⟨i + 1, by simpa [List.getD_cons_succ] using hi⟩
      · rintro ⟨i, hi⟩
        cases i with
        | zero => simp [List.getD_cons_zero] at hi
        | succ i =>
          rw [List.getD_cons_succ] at hi
          exact ⟨i, hi⟩

theorem HKeys_tail {e : Entry} {es : List Entry} (h : HKeys (e :: es)) : HKeys es := by
  intro i j k v v' hij hi hj
  exact h (i + 1) (j + 1) k v v' (by omega)
    (by rwa [List.getD_cons_succ]) (by rwa [List.getD_cons_succ])

theorem occList_keys_nodup : ∀ {es : List Entry}, HKeys es →
    ((occList es).map Prod.fst).Nodup := by
  intro es
  induction es with
  | nil => intro _; simp [occList]
  | cons e es ih =>
    intro hk
    cases e with
    | occupied k' v' =>
      simp only [occList, List.filterMap_cons, List.map_cons, List.nodup_cons]
      refine ⟨?_, ih (HKeys_tail hk)⟩
      intro hmem
      obtain ⟨⟨k2, v2⟩, hp, hfst⟩ := List.mem_map.mp hmem
      simp only at hfst
      subst hfst
      obtain ⟨i, hi⟩ := mem_occList.mp hp
      exact (hk 0 (i + 1) k2 v' v2 (by omega) (by simp [List.getD_cons_zero]))
        (by rwa [List.getD_cons_succ])
    | empty =>
      simp only [occList, List.filterMap_cons]
      exact ih (HKeys_tail hk)
    | tombstone =>
      simp only [occList, List.filterMap_cons]
      exact ih (HKeys_tail hk)

theorem occCount_le_nonEmpty : ∀ (es : List Entry), occCount es ≤ nonEmptyCount es := by
  intro es
  induction es with
  | nil => simp [occCount, occList, nonEmptyCount]
  | cons e es ih =>
    cases e with
    | occupied k v =>
      have h1 : occCount (Entry.occupied k v :: es) = occCount es + 1 := by
        simp [occCount, occList, List.filterMap_cons]
      have h2 : nonEmptyCount (Entry.occupied k v :: es) = nonEmptyCount es + 1 := by
        simp [nonEmptyCount, List.countP_cons]
      omega
    | empty =>
      have h1 : occCount (Entry.empty :: es) = occCount es := by
        simp [occCount, occList, List.filterMap_cons]
      have h2 : nonEmptyCount (Entry.empty :: es) = nonEmptyCount es := by
        simp [nonEmptyCount, List.countP_cons]
      omega
    | tombstone =>
      have h1 : occCount (Entry.tombstone :: es) = occCount es := by
        simp [occCount, occList, List.filterMap_cons]
      have h2 : nonEmptyCount (Entry.tombstone :: es) = nonEmptyCount es + 1 := by
        simp [nonEmptyCount, List.countP_cons]
      omega

/-- Probe witnesses survive any slot update that does not create an
`Empty` slot. -/
theorem HProbe_set {es : List Entry} {p : Nat} {e' : Entry}
    (hp : p < es.length) (hne' : e' ≠ .empty) (hold : HProbe es)
    (hnew : ∀ k v, e' = .occupied k v →
      ∃ jk, jk < es.length ∧ p = (hash_string k + jk) % es.length ∧
        ∀ j', j' < jk → es.getD ((hash_string k + j') % es.length) .empty ≠ .empty) :
    HProbe (es.set p e') := by
  have htrans : ∀ (q : Nat), es.getD q .empty ≠ .empty →
      (es.set p e').getD q .empty ≠ .empty := by
    intro q hq
    by_cases hqp : q = p
    · rw [hqp, getD_set_self _ _ hp]
      exact hne'
    · rw [getD_set_ne _ _ (fun he => hqp he.symm)]
      exact hq
  intro i k v hi
  rw [List.length_set]
  by_cases h : i = p
  · rw [h, getD_set_self _ _ hp] at hi
    obtain ⟨jk, hjk, hpos, hpre⟩ := hnew k v hi
    exact ⟨jk, hjk, h.trans hpos, fun j' hj' => htrans _ (hpre j' hj')⟩
  · rw [getD_set_ne _ _ (fun he => h he.symm)] at hi
    obtain ⟨jk, hjk, hpos, hpre⟩ := hold i k v hi
    exact ⟨jk, hjk, hpos, fun j' hj' => htrans _ (hpre j' hj')⟩

/-- Key distinctness survives inserting a key that occurs nowhere. -/
theorem HKeys_set_fresh {es : List Entry} {p : Nat} {k : String} {v : Value}
    (hp : p < es.length) (hold : HKeys es)
    (hfresh : ∀ i v', es.getD i .empty ≠ .occupied k v') :
    HKeys (es.set p (.occupied k v)) := by
  intro i j k0 v0 v0' hij hi
  by_cases h : i = p
  · rw [h, getD_set_self _ _ hp] at hi
    have hk0 : k0 = k := by cases hi; rfl
    rw [getD_set_ne _ _ (fun he => hij (h.trans he))]
    rw [hk0]
    exact hfresh j v0'
  · rw [getD_set_ne _ _ (fun he => h he.symm)] at hi
    by_cases hj : j = p
    · rw [hj, getD_set_self _ _ hp]
      intro hcon
      have hk0 : k0 = k := by cases hcon; rfl
      rw [hk0] at hi
      exact hfresh i v0 hi
    · rw [getD_set_ne _ _ (fun he => hj he.symm)]
      exact hold i j k0 v0 v0' hij hi

/-- Key distinctness survives overwriting a slot with the key it held. -/
theorem HKeys_set_same {es : List Entry} {p : Nat} {k : String} {v v0 : Value}
    (hp : p < es.length) (hold : HKeys es)
    (hslot : es.getD p .empty = .occupied k v0) :
    HKeys (es.set p (.occupied k v)) := by
  intro i j k1 v1 v1' hij hi
  by_cases h : i = p
  · rw [h, getD_set_self _ _ hp] at hi
    have hk1 : k1 = k := by cases hi; rfl
    rw [getD_set_ne _ _ (fun he => hij (h.trans he))]
    rw [hk1]
    exact hold p j k v0 v1' (fun he => hij (h.trans he)) hslot
  · rw [getD_set_ne _ _ (fun he => h he.symm)] at hi
    by_cases hj : j = p
    · rw [hj, getD_set_self _ _ hp]
      intro hcon
      have hk1 : k1 = k := by cases hcon; rfl
      rw [hk1] at hi
      exact hold p i k v0 v1 (fun he => h he.symm) hslot hi
    · rw [getD_set_ne _ _ (fun he => hj he.symm)]
      exact hold i j k1 v1 v1' hij hi

/-- Key distinctness survives tombstoning a slot. -/
theorem HKeys_set_tomb {es : List Entry} {p : Nat} (hold : HKeys es) :
    HKeys (es.set p .tombstone) := by
  intro i j k0 v0 v0' hij hi
  by_cases hplen : p < es.length
  · by_cases h : i = p
    · rw [h, getD_set_self _ _ hplen] at hi
      cases hi
    · rw [getD_set_ne _ _ (fun he => h he.symm)] at hi
      by_cases hj : j = p
      · rw [hj, getD_set_self _ _ hplen]
        intro hcon
        cases hcon
      · rw [getD_set_ne _ _ (fun he => hj he.symm)]
        exact hold i j k0 v0 v0' hij hi
  · rw [List.set_eq_of_length_le (by omega)] at hi ⊢
    exact hold i j k0 v0 v0' hij hi

theorem getD_replicate {c i : Nat} :
    (List.replicate c Entry.empty).getD i .empty = .empty := by
  rcases lt_or_ge i c with h | h
  · simp [List.getD, List.getElem?_replicate, h]
  · exact getD_len_le _ (by simpa using h)

theorem nonEmptyCount_replicate (c : Nat) :
    nonEmptyCount (List.replicate c Entry.empty) = 0 := by
  induction c with
  | zero => rfl
  | succ c ih =>
    rw [List.replicate_succ]
    simp only [nonEmptyCount, List.countP_cons] at ih ⊢
    simp [ih]

/-- The re-insertion loop of `Table::adjust_capacity` preserves the
invariants and accumulates exactly the occupied entries of the old table. -/
theorem rehash_fold {c : Nat} (hc : c ≠ 0) :
    ∀ (rest : List Entry) (es1 : List Entry) (cnt : Nat),
      es1.length = c →
      cnt = nonEmptyCount es1 →
      (∀ i, es1.getD i .empty ≠ .tombstone) →
      HKeys es1 → HProbe es1 →
      nonEmptyCount es1 + occCount rest < c →
      ((occList rest).map Prod.fst).Nodup →
      (∀ k v, (k, v) ∈ occList rest → ∀ i v', es1.getD i .empty ≠ .occupied k v') →
      ∃ es2 cnt2,
        rest.foldl rehashStep (some (es1, cnt)) = some (es2, cnt2) ∧
        es2.length = c ∧
        cnt2 = nonEmptyCount es2 ∧
        (∀ i, es2.getD i .empty ≠ .tombstone) ∧
        HKeys es2 ∧ HProbe es2 ∧
        nonEmptyCount es2 = nonEmptyCount es1 + occCount rest ∧
        (∀ k v, esHas es2 k v ↔ (esHas es1 k v ∨ (k, v) ∈ occList rest)) := by
  intro rest
  induction rest with
  | nil =>
    intro es1 cnt hlen hcnt hnt hk hp hroom hnd hdisj
    refine ⟨es1, cnt, rfl, hlen, hcnt, hnt, hk, hp, ?_, ?_⟩
    · simp [occCount, occList]
    · intro k v
      simp [occList]
  | cons e rest ih =>
    intro es1 cnt hlen hcnt hnt hk hp hroom hnd hdisj
    cases e with
    | empty =>
      have hocc : occCount (Entry.empty :: rest) = occCount rest := by
        simp [occCount, occList, List.filterMap_cons]
      have hol : occList (Entry.empty :: rest) = occList rest := by
        simp [occList, List.filterMap_cons]
      rw [hocc] at hroom
      rw [hol] at hnd hdisj
      obtain ⟨es2, cnt2, hfold, h1, h2, h3, h4, h5, h6, h7⟩ :=
        ih es1 cnt hlen hcnt hnt hk hp hroom hnd hdisj
      refine ⟨es2, cnt2, ?_, h1, h2, h3, h4, h5, by rw [hocc]; exact h6, ?_⟩
      · rw [List.foldl_cons]
        exact hfold
      · intro k v
        rw [hol]
        exact h7 k v
    | tombstone =>
      have hocc : occCount (Entry.tombstone :: rest) = occCount rest := by
        simp [occCount, occList, List.filterMap_cons]
      have hol : occList (Entry.tombstone :: rest) = occList rest := by
        simp [occList, List.filterMap_cons]
      rw [hocc] at hroom
      rw [hol] at hnd hdisj
      obtain ⟨es2, cnt2, hfold, h1, h2, h3, h4, h5, h6, h7⟩ :=
        ih es1 cnt hlen hcnt hnt hk hp hroom hnd hdisj
      refine ⟨es2, cnt2, ?_, h1, h2, h3, h4, h5, by rw [hocc]; exact h6, ?_⟩
      · rw [List.foldl_cons]
        exact hfold
      · intro k v
        rw [hol]
        exact h7 k v
    | occupied k v =>
      have hlen0 : es1.length ≠ 0 := by rw [hlen]; exact hc
      have hocc : occCount (Entry.occupied k v :: rest) = occCount rest + 1 := by
        simp [occCount, occList, List.filterMap_cons]
      have hol : occList (Entry.occupied k v :: rest) = (k, v) :: occList rest := by
        simp [occList, List.filterMap_cons]
      have hheadmem : (k, v) ∈ occList (Entry.occupied k v :: rest) := by
        rw [hol]
        exact List.mem_cons_self _ _
      have hfresh : ∀ i v', es1.getD i .empty ≠ .occupied k v' :=
        fun i v' => hdisj k v hheadmem i v'
      have hnd' : k ∉ (occList rest).map Prod.fst ∧
          ((occList rest).map Prod.fst).Nodup := by
        rw [hol] at hnd
        simpa [List.nodup_cons] using hnd
      -- the first empty probe step for k
      have hroomlt : nonEmptyCount es1 < es1.length := by
        rw [hlen]
        omega
      obtain ⟨j0, hj0lt, hemp, hmin⟩ :=
        exists_first_empty (hash_string k) hlen0 hroomlt
      have hbef : ∀ j, j < j0 → ∃ k' v',
          es1.getD ((hash_string k + j) % es1.length) .empty = .occupied k' v' ∧
            k' ≠ k := by
        intro j hj
        cases hslot : es1.getD ((hash_string k + j) % es1.length) .empty with
        | empty => exact absurd hslot (hmin j hj)
        | tombstone => exact absurd hslot (hnt _)
        | occupied k' v' =>
          refine ⟨k', v', rfl, ?_⟩
          intro he
          rw [he] at hslot
          exact hfresh _ v' hslot
      have hfind : find_entry_in es1 k = some ((hash_string k + j0) % es1.length) :=
        findEntryInAux_firstEmpty hemp hbef es1.length 0 (Nat.zero_le _) (by omega)
      set p := (hash_string k + j0) % es1.length with hpdef
      have hplt : p < es1.length := pos_lt _ _ hlen0
      have hstep : rehashStep (some (es1, cnt)) (Entry.occupied k v) =
          some (es1.set p (.occupied k v), cnt + 1) := by
        simp [rehashStep, hfind]
      set es1' := es1.set p (.occupied k v) with hes1'
      have hlen' : es1'.length = c := by
        rw [hes1', List.length_set, hlen]
      have hcnt' : cnt + 1 = nonEmptyCount es1' := by
        rw [hes1', nonEmptyCount_set_of_empty hplt hemp (by intro h; cases h), hcnt]
      have hnt' : ∀ i, es1'.getD i .empty ≠ .tombstone := by
        intro i
        by_cases h : i = p
        · rw [hes1', h, getD_set_self _ _ hplt]
          intro hcon
          cases hcon
        · rw [hes1', getD_set_ne _ _ (fun he => h he.symm)]
          exact hnt i
      have hk' : HKeys es1' := HKeys_set_fresh hplt hk hfresh
      have hp' : HProbe es1' := by
        refine HProbe_set hplt (by intro h; cases h) hp ?_
        intro k0 v0 he
        cases he
        exact ⟨j0, hj0lt, rfl, fun j' hj' => hmin j' hj'⟩
      have hroom' : nonEmptyCount es1' + occCount rest < c := by
        rw [← hcnt', hcnt]
        rw [hocc] at hroom
        omega
      have hdisj' : ∀ k2 v2, (k2, v2) ∈ occList rest →
          ∀ i v', es1'.getD i .empty ≠ .occupied k2 v' := by
        intro k2 v2 hm i v'
        by_cases h : i = p
        · rw [hes1', h, getD_set_self _ _ hplt]
          intro hcon
          have : k2 = k := by cases hcon; rfl
          subst this
          exact hnd'.1 (List.mem_map.mpr ⟨(k2, v2), hm, rfl⟩)
        · rw [hes1', getD_set_ne _ _ (fun he => h he.symm)]
          exact hdisj k2 v2 (by rw [hol]; exact List.mem_cons_of_mem _ hm) i v'
      obtain ⟨es2, cnt2, hfold, h1, h2, h3, h4, h5, h6, h7⟩ :=
        ih es1' (cnt + 1) hlen' hcnt' hnt' hk' hp' hroom' hnd'.2 hdisj'
      have hhas1 : ∀ k0 v0, esHas es1' k0 v0 ↔
          (esHas es1 k0 v0 ∨ (k0, v0) = (k, v)) := by
        intro k0 v0
        rw [hes1', esHas_set_iff hplt]
        constructor
        · rintro (⟨i, _, hi⟩ | heq)
          · exact Or.inl ⟨i, hi⟩
          · cases heq
            exact Or.inr rfl
        · rintro (⟨i, hi⟩ | heq)
          · refine Or.inl ⟨i, ?_, hi⟩
            intro hip
            rw [hip, hemp] at hi
            cases hi
          · rw [Prod.mk.injEq] at heq
            obtain ⟨hh1, hh2⟩ := heq
            subst hh1; subst hh2
            exact Or.inr rfl
      refine ⟨es2, cnt2, ?_, h1, h2, h3, h4, h5, ?_, ?_⟩
      · rw [List.foldl_cons, hstep]
        exact hfold
      · rw [h6, ← hcnt', hcnt, hocc]
        omega
      · intro k0 v0
        rw [h7 k0 v0, hhas1 k0 v0, hol, List.mem_cons]
        tauto

theorem Linked_of_esHas_iff {es es' : List Entry} {m : String → Option Value}
    (h : ∀ k v, esHas es' k v ↔ esHas es k v) (hm : Linked es m) : Linked es' m := by
  intro k0
  have hk0 := hm k0
  cases hmk : m k0 with
  | some v0 =>
    rw [hmk] at hk0
    exact (h k0 v0).mpr hk0
  | none =>
    rw [hmk] at hk0
    intro i v0 hcon
    obtain ⟨i', hi'⟩ := (h k0 v0).mp ⟨i, hcon⟩
    exact hk0 i' v0 hi'

/-- Packaging of `Table::adjust_capacity` for the growth step of `set`. -/
theorem adjust_ok {t : Table} (hInv : TableInv t) {c : Nat} (hc8 : 8 ≤ c)
    (hocc : occCount t.entries < c) :
    ∃ t1, t.adjust_capacity c = some t1 ∧
      t1.entries.length = c ∧
      t1.count = nonEmptyCount t1.entries ∧
      nonEmptyCount t1.entries = occCount t.entries ∧
      HKeys t1.entries ∧ HProbe t1.entries ∧
      (∀ k v, esHas t1.entries k v ↔ esHas t.entries k v) := by
  have hc0 : c ≠ 0 := by omega
  obtain ⟨es2, cnt2, hfold, h1, h2, h3, h4, h5, h6, h7⟩ :=
    rehash_fold hc0 t.entries (List.replicate c Entry.empty) 0
      (by simp)
      (by rw [nonEmptyCount_replicate])
      (fun i => by rw [getD_replicate]; intro h; cases h)
      (by intro i j k0 v0 v0' hij hi; rw [getD_replicate] at hi; cases hi)
      (by intro i k0 v0 hi; rw [getD_replicate] at hi; cases hi)
      (by rw [nonEmptyCount_replicate]; omega)
      (occList_keys_nodup hInv.hkeys)
      (fun k v _ i v' => by rw [getD_replicate]; intro h; cases h)
  refine ⟨⟨es2, cnt2⟩, ?_, h1, h2, ?_, h4, h5, ?_⟩
  · simp [Table.adjust_capacity, hfold]
  · rw [h6, nonEmptyCount_replicate]
    omega
  · intro k v
    rw [h7 k v, mem_occList]
    constructor
    · rintro (⟨i, hi⟩ | h)
      · rw [getD_replicate] at hi
        cases hi
      · exact h
    · intro h
      exact Or.inr h

/-- The growth step at the head of `Table::set`: afterwards the table is
non-empty, at least 8 wide, invariant, linked to the same map, and has
strict headroom for one insertion. -/
theorem grow_phase {t : Table} {m : String → Option Value} (hInv : TableInv t)
    (hm : Linked t.entries m) :
    ∃ t1 : Table,
      (if t.count + 1 > t.entries.length * 3 / 4 then
        t.adjust_capacity (if t.entries.length < 8 then 8 else t.entries.length * 2)
       else pure t) = some t1 ∧
      t1.entries.length ≠ 0 ∧
      8 ≤ t1.entries.length ∧
      t1.count = nonEmptyCount t1.entries ∧
      HKeys t1.entries ∧ HProbe t1.entries ∧
      nonEmptyCount t1.entries + 1 < t1.entries.length ∧
      Linked t1.entries m := by
  by_cases hg : t.count + 1 > t.entries.length * 3 / 4
  · rw [if_pos hg]
    have hocclt : occCount t.entries ≤ nonEmptyCount t.entries :=
      occCount_le_nonEmpty t.entries
    rcases hInv.hcap with hz | h8
    · have hocc0 : occCount t.entries = 0 := by
        have := nonEmptyCount_le t.entries
        omega
      have hcap : (if t.entries.length < 8 then 8 else t.entries.length * 2) = 8 := by
        rw [if_pos (by omega)]
      rw [hcap]
      obtain ⟨t1, hadj, h1, h2, h3, h4, h5, h6⟩ :=
        adjust_ok hInv (c := 8) (by omega) (by omega)
      refine ⟨t1, hadj, by omega, by omega, h2, h4, h5, by omega,
        Linked_of_esHas_iff h6 hm⟩
    · have hlt := hInv.hlt (by omega)
      have hcap : (if t.entries.length < 8 then 8 else t.entries.length * 2) =
          t.entries.length * 2 := by
        rw [if_neg (by omega)]
      rw [hcap]
      obtain ⟨t1, hadj, h1, h2, h3, h4, h5, h6⟩ :=
        adjust_ok hInv (c := t.entries.length * 2) (by omega) (by omega)
      refine ⟨t1, hadj, by omega, by omega, h2, h4, h5, by omega,
        Linked_of_esHas_iff h6 hm⟩
  · rw [if_neg hg]
    have hcnt := hInv.hcnt
    have hle : t.count + 1 ≤ t.entries.length * 3 / 4 := by omega
    have hlen0 : t.entries.length ≠ 0 := by
      intro h
      rw [h] at hle
      omega
    have h8 : 8 ≤ t.entries.length := by
      rcases hInv.hcap with hz | h8
      · exact absurd hz hlen0
      · exact h8
    refine ⟨t, rfl, hlen0, h8, hInv.hcnt, hInv.hkeys, hInv.hprobe, ?_, hm⟩
    omega

/-- Rust `Table::set` reduces to its probe-and-write body once the growth step
has produced `t1`. -/
theorem set_eq_body {t t1 : Table} {k : String} {v : Value}
    (h : (if t.count + 1 > t.entries.length * 3 / 4 then
        t.adjust_capacity (if t.entries.length < 8 then 8 else t.entries.length * 2)
       else pure t) = some t1) :
    t.set k v = (do
      let index ← t1.find_entry k
      let is_new_key := match t1.entries.getD index .empty with
        | .empty => true
        | _ => false
      let count := if is_new_key then t1.count + 1 else t1.count
      pure (⟨t1.entries.set index (.occupied k v), count⟩, is_new_key)) := by
  by_cases hg : t.count + 1 > t.entries.length * 3 / 4
  · rw [if_pos hg] at h
    simp only [Table.set, if_pos hg, h]
    rfl
  · rw [if_neg hg] at h
    have ht : t = t1 := Option.some.inj h
    subst ht
    simp only [Table.set, if_neg hg]
    rfl

/-- The probe-and-write body of `Table::set` on a grown table: it succeeds,
preserves the invariant, and updates the abstract map at `k`. -/
theorem set_body_ok {t1 : Table} {m : String → Option Value}
    (hlen0 : t1.entries.length ≠ 0)
    (hcap8 : 8 ≤ t1.entries.length)
    (hcnt1 : t1.count = nonEmptyCount t1.entries)
    (hkeys1 : HKeys t1.entries)
    (hprobe1 : HProbe t1.entries)
    (hroom1 : nonEmptyCount t1.entries + 1 < t1.entries.length)
    (hm1 : Linked t1.entries m) (k : String) (v : Value) :
    ∃ t' isNew,
      (do
        let index ← t1.find_entry k
        let is_new_key := match t1.entries.getD index .empty with
          | Entry.empty => true
          | _ => false
        let count := if is_new_key then t1.count + 1 else t1.count
        pure (⟨t1.entries.set index (.occupied k v), count⟩, is_new_key) :
          Option (Table × Bool)) = some (t', isNew) ∧
      TableInv t' ∧
      Linked t'.entries (fun q => if k = q then some v else m q) := by
  have hmk := hm1 k
  cases hmk' : m k with
  | some v0 =>
    rw [hmk'] at hmk
    obtain ⟨i, hi⟩ := hmk
    obtain ⟨jk, hjk, hposi, hpre⟩ := hprobe1 i k v0 hi
    have hilt : i < t1.entries.length := by
      rw [hposi]
      exact pos_lt _ _ hlen0
    have hbef : ∀ j, j < jk →
        t1.entries.getD ((hash_string k + j) % t1.entries.length) .empty ≠ .empty ∧
        ∀ k' v', t1.entries.getD ((hash_string k + j) % t1.entries.length) .empty =
          .occupied k' v' → k' ≠ k := by
      intro j hj
      refine ⟨hpre j hj, ?_⟩
      intro k' v' hslot he
      rw [he] at hslot
      have hne : (hash_string k + j) % t1.entries.length ≠ i := by
        rw [hposi]
        intro hcon
        have := pos_inj (hash_string k) (lt_trans hj hjk) hjk hcon
        omega
      exact hkeys1 _ i k v' v0 hne hslot hi
    have hfind : t1.find_entry k = some i := by
      rw [Table.find_entry]
      rw [findEntryAux_finds (hposi ▸ hi) hbef t1.entries.length 0 none
        (Nat.zero_le _) (by omega)]
      rw [hposi]
    have hnocc : Entry.occupied k v ≠ Entry.empty := by intro h; cases h
    have hocc0 : t1.entries.getD i .empty ≠ Entry.empty := by
      rw [hi]
      intro h
      cases h
    refine ⟨⟨t1.entries.set i (.occupied k v), t1.count⟩, false, ?_, ?_, ?_⟩
    · rw [hfind]
      simp only [Option.bind_eq_bind, Option.some_bind, hi]
      rfl
    · refine ⟨?_, ?_, ?_, ?_, ?_⟩
      · show t1.count = nonEmptyCount (t1.entries.set i (.occupied k v))
        rw [nonEmptyCount_set_of_ne hilt hocc0 hnocc]
        exact hcnt1
      · intro _
        show nonEmptyCount (t1.entries.set i (.occupied k v)) <
          (t1.entries.set i (.occupied k v)).length
        rw [List.length_set, nonEmptyCount_set_of_ne hilt hocc0 hnocc]
        omega
      · show (t1.entries.set i (.occupied k v)).length = 0 ∨ _
        rw [List.length_set]
        exact Or.inr hcap8
      · exact HKeys_set_same hilt hkeys1 hi
      · refine HProbe_set hilt hnocc hprobe1 ?_
        intro k2 v2 he
        cases he
        exact ⟨jk, hjk, hposi, hpre⟩
    · intro q
      by_cases hq : k = q
      · subst hq
        simp only [if_pos rfl]
        exact ⟨i, by rw [getD_set_self _ _ hilt]⟩
      · simp only [if_neg hq]
        have hmq := hm1 q
        cases hmq' : m q with
        | some w =>
          rw [hmq'] at hmq
          obtain ⟨i', hi'⟩ := hmq
          have hne : i' ≠ i := by
            intro he
            rw [he, hi] at hi'
            cases hi'
            exact hq rfl
          exact ⟨i', by rw [getD_set_ne _ _ (fun he => hne he.symm)]; exact hi'⟩
        | none =>
          rw [hmq'] at hmq
          intro i' v' hcon
          by_cases he : i' = i
          · rw [he, getD_set_self _ _ hilt] at hcon
            cases hcon
            exact hq rfl
          · rw [getD_set_ne _ _ (fun x => he x.symm)] at hcon
            exact hmq i' v' hcon
  | none =>
    rw [hmk'] at hmk
    have hnonElt : nonEmptyCount t1.entries < t1.entries.length := by omega
    obtain ⟨j0, hj0lt, hemp, hmin⟩ :=
      exists_first_empty (hash_string k) hlen0 hnonElt
    have hbef : ∀ j, j < j0 →
        t1.entries.getD ((hash_string k + j) % t1.entries.length) .empty ≠ .empty ∧
        ∀ k' v', t1.entries.getD ((hash_string k + j) % t1.entries.length) .empty =
          .occupied k' v' → k' ≠ k := by
      intro j hj
      refine ⟨hmin j hj, ?_⟩
      intro k' v' hslot he
      rw [he] at hslot
      exact hmk _ v' hslot
    obtain ⟨jr, hjr, hslotr, hfind0⟩ :=
      findEntryAux_miss hemp hbef t1.entries.length 0 none (Nat.zero_le _)
        (by omega) (Or.inl rfl)
    have hfind : t1.find_entry k =
        some ((hash_string k + jr) % t1.entries.length) := by
      rw [Table.find_entry]
      exact hfind0
    have hplt : (hash_string k + jr) % t1.entries.length < t1.entries.length :=
      pos_lt _ _ hlen0
    have hnocc : Entry.occupied k v ≠ Entry.empty := by intro h; cases h
    have hpnotocc : ∀ k2 v2,
        t1.entries.getD ((hash_string k + jr) % t1.entries.length) .empty ≠
          .occupied k2 v2 := by
      intro k2 v2
      rcases hslotr with h | h <;> rw [h] <;> intro hcon <;> cases hcon
    have hkeys' : HKeys (t1.entries.set ((hash_string k + jr) % t1.entries.length)
        (.occupied k v)) := HKeys_set_fresh hplt hkeys1 hmk
    have hprobe' : HProbe (t1.entries.set ((hash_string k + jr) % t1.entries.length)
        (.occupied k v)) := by
      refine HProbe_set hplt hnocc hprobe1 ?_
      intro k2 v2 he
      cases he
      exact ⟨jr, lt_of_le_of_lt hjr hj0lt, rfl,
        fun j' hj' => hmin j' (lt_of_lt_of_le hj' hjr)⟩
    have hlinked' : Linked (t1.entries.set ((hash_string k + jr) % t1.entries.length)
        (.occupied k v)) (fun q => if k = q then some v else m q) := by
      intro q
      by_cases hq : k = q
      · subst hq
        simp only [if_pos rfl]
        exact ⟨_, by rw [getD_set_self _ _ hplt]⟩
      · simp only [if_neg hq]
        have hmq := hm1 q
        cases hmq' : m q with
        | some w =>
          rw [hmq'] at hmq
          obtain ⟨i', hi'⟩ := hmq
          have hne : i' ≠ (hash_string k + jr) % t1.entries.length := by
            intro he
            rw [he] at hi'
            exact hpnotocc q w hi'
          exact ⟨i', by rw [getD_set_ne _ _ (fun he => hne he.symm)]; exact hi'⟩
        | none =>
          rw [hmq'] at hmq
          intro i' v' hcon
          by_cases he : i' = (hash_string k + jr) % t1.entries.length
          · rw [he, getD_set_self _ _ hplt] at hcon
            cases hcon
            exact hq rfl
          · rw [getD_set_ne _ _ (fun x => he x.symm)] at hcon
            exact hmq i' v' hcon
    rcases hslotr with hsE | hsT
    · refine ⟨⟨t1.entries.set ((hash_string k + jr) % t1.entries.length)
        (.occupied k v), t1.count + 1⟩, true, ?_, ?_, hlinked'⟩
      · rw [hfind]
        simp only [Option.bind_eq_bind, Option.some_bind, hsE]
        rfl
      · refine ⟨?_, ?_, ?_, hkeys', hprobe'⟩
        · show t1.count + 1 = nonEmptyCount _
          rw [nonEmptyCount_set_of_empty hplt hsE hnocc]
          omega
        · intro _
          show nonEmptyCount _ < _
          rw [List.length_set, nonEmptyCount_set_of_empty hplt hsE hnocc]
          omega
        · rw [List.length_set]
          exact Or.inr hcap8
    · refine ⟨⟨t1.entries.set ((hash_string k + jr) % t1.entries.length)
        (.occupied k v), t1.count⟩, false, ?_, ?_, hlinked'⟩
      · rw [hfind]
        simp only [Option.bind_eq_bind, Option.some_bind, hsT]
        rfl
      · have htne : t1.entries.getD ((hash_string k + jr) % t1.entries.length)
            .empty ≠ Entry.empty := by
          rw [hsT]
          intro h
          cases h
        refine ⟨?_, ?_, ?_, hkeys', hprobe'⟩
        · show t1.count = nonEmptyCount _
          rw [nonEmptyCount_set_of_ne hplt htne hnocc]
          exact hcnt1
        · intro _
          show nonEmptyCount _ < _
          rw [List.length_set, nonEmptyCount_set_of_ne hplt htne hnocc]
          omega
        · rw [List.length_set]
          exact Or.inr hcap8

/-- Rust `Table::set` succeeds, preserves the invariant, and updates the map. -/
theorem set_ok {t : Table} {m : String → Option Value} (hInv : TableInv t)
    (hm : Linked t.entries m) (k : String) (v : Value) :
    ∃ t' isNew, t.set k v = some (t', isNew) ∧ TableInv t' ∧
      Linked t'.entries (fun q => if k = q then some v else m q) := by
  obtain ⟨t1, hgrow, hlen0, hcap8, hcnt1, hkeys1, hprobe1, hroom1, hm1⟩ :=
    grow_phase hInv hm
  obtain ⟨t', isNew, hbody, hInv', hm'⟩ :=
    set_body_ok hlen0 hcap8 hcnt1 hkeys1 hprobe1 hroom1 hm1 k v
  exact ⟨t', isNew, (set_eq_body hgrow).trans hbody, hInv', hm'⟩

/-- Rust `Table::delete` succeeds, preserves the invariant, removes the key. -/
theorem delete_ok {t : Table} {m : String → Option Value} (hInv : TableInv t)
    (hm : Linked t.entries m) (k : String) :
    ∃ t' b, t.delete k = some (t', b) ∧ TableInv t' ∧
      Linked t'.entries (fun q => if k = q then none else m q) := by
  by_cases hemp : t.entries.isEmpty = true
  · have hnil : t.entries = [] := List.isEmpty_iff.mp hemp
    refine ⟨t, false, ?_, hInv, ?_⟩
    · simp [Table.delete, hemp]
    · intro q
      by_cases hq : k = q
      · simp only [if_pos hq]
        intro i v hcon
        rw [hnil, getD_len_le _ (Nat.zero_le _)] at hcon
        cases hcon
      · simp only [if_neg hq]
        exact hm q
  · have hlen0 : t.entries.length ≠ 0 := by
      intro h
      rw [List.length_eq_zero] at h
      rw [h] at hemp
      simp at hemp
    have hmk := hm k
    cases hmk' : m k with
    | some v0 =>
      rw [hmk'] at hmk
      obtain ⟨i, hi⟩ := hmk
      obtain ⟨jk, hjk, hposi, hpre⟩ := hInv.hprobe i k v0 hi
      have hilt : i < t.entries.length := by
        rw [hposi]
        exact pos_lt _ _ hlen0
      have hbef : ∀ j, j < jk →
          t.entries.getD ((hash_string k + j) % t.entries.length) .empty ≠ .empty ∧
          ∀ k' v', t.entries.getD ((hash_string k + j) % t.entries.length) .empty =
            .occupied k' v' → k' ≠ k := by
        intro j hj
        refine ⟨hpre j hj, ?_⟩
        intro k' v' hslot he
        rw [he] at hslot
        have hne : (hash_string k + j) % t.entries.length ≠ i := by
          rw [hposi]
          intro hcon
          have := pos_inj (hash_string k) (lt_trans hj hjk) hjk hcon
          omega
        exact hInv.hkeys _ i k v' v0 hne hslot hi
      have hfind : t.find_entry k = some i := by
        rw [Table.find_entry]
        rw [findEntryAux_finds (hposi ▸ hi) hbef t.entries.length 0 none
          (Nat.zero_le _) (by omega)]
        rw [hposi]
      have hocc0 : t.entries.getD i .empty ≠ Entry.empty := by
        rw [hi]; intro h; cases h
      have htne : (Entry.tombstone : Entry) ≠ Entry.empty := by intro h; cases h
      refine ⟨⟨t.entries.set i .tombstone, t.count⟩, true, ?_, ?_, ?_⟩
      · simp only [Table.delete, hemp, Bool.false_eq_true, if_false, hfind,
          Option.bind_eq_bind, Option.some_bind, hi]
        rfl
      · refine ⟨?_, ?_, ?_, HKeys_set_tomb hInv.hkeys, ?_⟩
        · show t.count = nonEmptyCount _
          rw [nonEmptyCount_set_of_ne hilt hocc0 htne]
          exact hInv.hcnt
        · intro _
          show nonEmptyCount _ < _
          rw [List.length_set, nonEmptyCount_set_of_ne hilt hocc0 htne]
          exact hInv.hlt hlen0
        · rw [List.length_set]
          exact hInv.hcap
        · refine HProbe_set hilt htne hInv.hprobe ?_
          intro k2 v2 he
          cases he
      · intro q
        by_cases hq : k = q
        · simp only [if_pos hq]
          intro i' v' hcon
          by_cases he : i' = i
          · rw [he, getD_set_self _ _ hilt] at hcon
            cases hcon
          · rw [getD_set_ne _ _ (fun x => he x.symm)] at hcon
            rw [← hq] at hcon
            exact hInv.hkeys i i' k v0 v' (fun x => he x.symm) hi hcon
        · simp only [if_neg hq]
          have hmq := hm q
          cases hmq' : m q with
          | some w =>
            rw [hmq'] at hmq
            obtain ⟨i', hi'⟩ := hmq
            have hne : i' ≠ i := by
              intro he
              rw [he, hi] at hi'
              cases hi'
              exact hq rfl
            exact ⟨i', by rw [getD_set_ne _ _ (fun x => hne x.symm)]; exact hi'⟩
          | none =>
            rw [hmq'] at hmq
            intro i' v' hcon
            by_cases he : i' = i
            · rw [he, getD_set_self _ _ hilt] at hcon
              cases hcon
            · rw [getD_set_ne _ _ (fun x => he x.symm)] at hcon
              exact hmq i' v' hcon
    | none =>
      rw [hmk'] at hmk
      have hnelt : nonEmptyCount t.entries < t.entries.length := hInv.hlt hlen0
      obtain ⟨j0, hj0lt, hemp0, hmin⟩ :=
        exists_first_empty (hash_string k) hlen0 hnelt
      have hbef : ∀ j, j < j0 →
          t.entries.getD ((hash_string k + j) % t.entries.length) .empty ≠ .empty ∧
          ∀ k' v', t.entries.getD ((hash_string k + j) % t.entries.length) .empty =
            .occupied k' v' → k' ≠ k := by
        intro j hj
        refine ⟨hmin j hj, ?_⟩
        intro k' v' hslot he
        rw [he] at hslot
        exact hmk _ v' hslot
      obtain ⟨jr, hjr, hslotr, hfind0⟩ :=
        findEntryAux_miss hemp0 hbef t.entries.length 0 none (Nat.zero_le _)
          (by omega) (Or.inl rfl)
      have hfind : t.find_entry k =
          some ((hash_string k + jr) % t.entries.length) := by
        rw [Table.find_entry]
        exact hfind0
      refine ⟨t, false, ?_, hInv, ?_⟩
      · rcases hslotr with hs | hs <;>
          simp only [Table.delete, hemp, Bool.false_eq_true, if_false, hfind,
            Option.bind_eq_bind, Option.some_bind, hs] <;> rfl
      · intro q
        by_cases hq : k = q
        · simp only [if_pos hq]
          rw [← hq]
          exact hmk
        · simp only [if_neg hq]
          exact hm q

/-- Rust `Table::get` returns exactly the abstract map. -/
theorem get_ok {t : Table} {m : String → Option Value} (hInv : TableInv t)
    (hm : Linked t.entries m) (k : String) : t.get k = some (m k) := by
  by_cases hemp : t.entries.isEmpty = true
  · have hnil : t.entries = [] := List.isEmpty_iff.mp hemp
    have hmk := hm k
    cases hmk' : m k with
    | some v0 =>
      rw [hmk'] at hmk
      obtain ⟨i, hi⟩ := hmk
      rw [hnil, getD_len_le _ (Nat.zero_le _)] at hi
      cases hi
    | none =>
      simp [Table.get, hemp]
  · have hlen0 : t.entries.length ≠ 0 := by
      intro h
      rw [List.length_eq_zero] at h
      rw [h] at hemp
      simp at hemp
    have hmk := hm k
    cases hmk' : m k with
    | some v0 =>
      rw [hmk'] at hmk
      obtain ⟨i, hi⟩ := hmk
      obtain ⟨jk, hjk, hposi, hpre⟩ := hInv.hprobe i k v0 hi
      have hbef : ∀ j, j < jk →
          t.entries.getD ((hash_string k + j) % t.entries.length) .empty ≠ .empty ∧
          ∀ k' v', t.entries.getD ((hash_string k + j) % t.entries.length) .empty =
            .occupied k' v' → k' ≠ k := by
        intro j hj
        refine ⟨hpre j hj, ?_⟩
        intro k' v' hslot he
        rw [he] at hslot
        have hne : (hash_string k + j) % t.entries.length ≠ i := by
          rw [hposi]
          intro hcon
          have := pos_inj (hash_string k) (lt_trans hj hjk) hjk hcon
          omega
        exact hInv.hkeys _ i k v' v0 hne hslot hi
      have hfind : t.find_entry k = some i := by
        rw [Table.find_entry]
        rw [findEntryAux_finds (hposi ▸ hi) hbef t.entries.length 0 none
          (Nat.zero_le _) (by omega)]
        rw [hposi]
      simp only [Table.get, hemp, Bool.false_eq_true, if_false, hfind,
        Option.bind_eq_bind, Option.some_bind, hi]
      rfl
    | none =>
      rw [hmk'] at hmk
      have hnelt : nonEmptyCount t.entries < t.entries.length := hInv.hlt hlen0
      obtain ⟨j0, hj0lt, hemp0, hmin⟩ :=
        exists_first_empty (hash_string k) hlen0 hnelt
      have hbef : ∀ j, j < j0 →
          t.entries.getD ((hash_string k + j) % t.entries.length) .empty ≠ .empty ∧
          ∀ k' v', t.entries.getD ((hash_string k + j) % t.entries.length) .empty =
            .occupied k' v' → k' ≠ k := by
        intro j hj
        refine ⟨hmin j hj, ?_⟩
        intro k' v' hslot he
        rw [he] at hslot
        exact hmk _ v' hslot
      obtain ⟨jr, hjr, hslotr, hfind0⟩ :=
        findEntryAux_miss hemp0 hbef t.entries.length 0 none (Nat.zero_le _)
          (by omega) (Or.inl rfl)
      have hfind : t.find_entry k =
          some ((hash_string k + jr) % t.entries.length) := by
        rw [Table.find_entry]
        exact hfind0
      rcases hslotr with hs | hs <;>
        simp only [Table.get, hemp, Bool.false_eq_true, if_false, hfind,
          Option.bind_eq_bind, Option.some_bind, hs] <;> rfl

theorem tableInv_new : TableInv Table.new := by
  refine ⟨rfl, ?_, Or.inl rfl, ?_, ?_⟩
  · intro h
    simp [Table.new] at h
  · intro i j k v v' hij hi
    rw [show Table.new.entries = [] from rfl, getD_len_le _ (Nat.zero_le _)] at hi
    cases hi
  · intro i k v hi
    rw [show Table.new.entries = [] from rfl, getD_len_le _ (Nat.zero_le _)] at hi
    cases hi

theorem linked_new : Linked Table.new.entries (fun _ => none) := by
  intro k
  intro i v hcon
  rw [show Table.new.entries = [] from rfl, getD_len_le _ (Nat.zero_le _)] at hcon
  cases hcon

/-- Running any operation sequence from an invariant, linked table
succeeds, preserves the invariant, and tracks the abstract map. -/
theorem runOpsFrom_ok : ∀ (ops : List TOp) (t : Table) (m : String → Option Value),
    TableInv t → Linked t.entries m →
    ∃ t', runOpsFrom t ops = some t' ∧ TableInv t' ∧
      Linked t'.entries (mApply ops m) := by
  intro ops
  induction ops with
  | nil =>
    intro t m hInv hm
    exact ⟨t, rfl, hInv, hm⟩
  | cons op ops ih =>
    intro t m hInv hm
    cases op with
    | setOp k v =>
      obtain ⟨t1, isNew, hset, hInv1, hm1⟩ := set_ok hInv hm k v
      obtain ⟨t', hrun, hInv', hm'⟩ := ih t1 (mUpdate m (.setOp k v)) hInv1 hm1
      refine ⟨t', ?_, hInv', hm'⟩
      simp only [runOpsFrom, hset, Option.map_some', Option.bind_eq_bind,
        Option.some_bind]
      exact hrun
    | delOp k =>
      obtain ⟨t1, b, hdel, hInv1, hm1⟩ := delete_ok hInv hm k
      obtain ⟨t', hrun, hInv', hm'⟩ := ih t1 (mUpdate m (.delOp k)) hInv1 hm1
      refine ⟨t', ?_, hInv', hm'⟩
      simp only [runOpsFrom, hdel, Option.map_some', Option.bind_eq_bind,
        Option.some_bind]
      exact hrun

theorem find_entry_ne_none {t : Table} {m : String → Option Value}
    (hInv : TableInv t) (hm : Linked t.entries m)
    (hlen0 : t.entries.length ≠ 0) (k : String) : t.find_entry k ≠ none := by
  intro hnone
  have hget := get_ok hInv hm k
  have hempF : ¬ (t.entries.isEmpty = true) := by
    intro h
    exact hlen0 (by rw [List.isEmpty_iff.mp h]; rfl)
  rw [Table.get, if_neg hempF] at hget
  simp [hnone] at hget

theorem find_string_ne_none {t : Table} (hInv : TableInv t) (s : String) (h : Nat) :
    t.find_string s h ≠ none := by
  by_cases hemp : t.entries.isEmpty = true
  · simp [Table.find_string, hemp]
  · have hlen0 : t.entries.length ≠ 0 := by
      intro hl
      rw [List.length_eq_zero] at hl
      rw [hl] at hemp
      simp at hemp
    have hnelt : nonEmptyCount t.entries < t.entries.length := hInv.hlt hlen0
    obtain ⟨j0, hj0lt, hemp0, _⟩ := exists_first_empty h hlen0 hnelt
    rw [Table.find_string, if_neg hemp]
    exact findStringAux_ne_none hemp0 t.entries.length 0 (Nat.zero_le _) (by omega)

/-- C8. After any `set`/`delete` sequence from `Table::new`, `get` returns
exactly the most recently set value of a live key and a miss for a key
never inserted or since deleted — across capacity growth and through
tombstone slots; no probe loop diverges on the way (the run itself and the
final `get` are `some`). -/
theorem table_get_returns_most_recent (ops : List TOp) (k : String) :
    ∃ t, runOps ops = some t ∧ t.get k = some (expectedLookup ops k) := by
  obtain ⟨t, hrun, hInv, hm⟩ :=
    runOpsFrom_ok ops Table.new (fun _ => none) tableInv_new linked_new
  refine ⟨t, hrun, ?_⟩
  rw [expectedLookup_eq_mApply]
  exact get_ok hInv hm k

/-- C10. In every table reachable from `Table::new`, `count` equals the
number of non-`Empty` slots (a `set` over a tombstone does not bump it and
`delete` never lowers it), the non-`Empty` slots never fill a non-zero
capacity, and consequently every probe loop — `find_entry`, `get`,
`delete`, `find_string` (for any probe hash) — terminates. -/
theorem table_count_and_probes_terminate (ops : List TOp) :
    ∃ t, runOps ops = some t ∧
      t.count = nonEmptyCount t.entries ∧
      (t.entries.length ≠ 0 → nonEmptyCount t.entries < t.entries.length) ∧
      (∀ k, t.get k ≠ none ∧ t.delete k ≠ none ∧
        (t.entries.length ≠ 0 → t.find_entry k ≠ none) ∧
        ∀ h, t.find_string k h ≠ none) := by
  obtain ⟨t, hrun, hInv, hm⟩ :=
    runOpsFrom_ok ops Table.new (fun _ => none) tableInv_new linked_new
  refine ⟨t, hrun, hInv.hcnt, hInv.hlt, ?_⟩
  intro k
  refine ⟨?_, ?_, ?_, fun h => find_string_ne_none hInv k h⟩
  · rw [get_ok hInv hm k]
    simp
  · obtain ⟨t', b, hdel, _, _⟩ := delete_ok hInv hm k
    rw [hdel]
    simp
  · intro hlen0
    exact find_entry_ne_none hInv hm hlen0 k
